import Mathlib

/-!
Verification of the schema-driven callback-data codec (encoder / decoder /
validator triad) of the grammy-callbacks plugin.

The JavaScript runtime values handled by the codec are modelled by the
inductive type `Value` below.  JS numbers are modelled by `ℚ` (every number
produced by `JSON.parse` is a finite decimal; the non-finite doubles NaN and
±Infinity, which cannot appear on the JSON wire, are outside the model).
JS BigInt values are modelled by `ℤ`.  JS objects are modelled by their
(insertion-ordered) list of own enumerable string-keyed fields; keys of a JS
object are unique.  The decoder's poison marker `Symbol("POISON")` is the only
symbol value that appears anywhere in the library, and is modelled by the
dedicated constructor `Value.sym`.
-/

inductive Value where
  | null : Value
  | num (q : ℚ) : Value
  | str (s : String) : Value
  | bool (b : Bool) : Value
  | bigint (n : ℤ) : Value
  | sym : Value
  | arr (elems : List Value) : Value
  | obj (fields : List (String × Value)) : Value

/-- The poison marker `const poison = Symbol("POISON")` of decoder.ts. -/
def poison : Value := Value.sym

/-- JS `typeof` on the values of the model (`typeof null` is `"object"`). -/
def Value.jsTypeof : Value → String
  | .null => "object"
  | .num _ => "number"
  | .str _ => "string"
  | .bool _ => "boolean"
  | .bigint _ => "bigint"
  | .sym => "symbol"
  | .arr _ => "object"
  | .obj _ => "object"

/-- JS `Array.isArray`. -/
def Value.isArray : Value → Bool
  | .arr _ => true
  | _ => false

/-- Test for the JS value `null` (`payload === null`). -/
def Value.isNull : Value → Bool
  | .null => true
  | _ => false

/-- JS property read `fields[key]` on an object's field list; JS object keys
are unique, so first-match lookup is exact. `none` models `undefined`. -/
def getField : List (String × Value) → String → Option Value
  | [], _ => none
  | (k, v) :: rest, key => if k = key then some v else getField rest key

/-- JS `key in payload` (own enumerable properties; the prototype chain is not
modelled). -/
def hasField (fields : List (String × Value)) (key : String) : Bool :=
  (getField fields key).isSome

/-- JS ToIntegerOrInfinity on a finite number: truncation toward zero. -/
def jsTrunc (q : ℚ) : ℤ :=
  if 0 ≤ q then ⌊q⌋ else ⌈q⌉

/-- JS `Array.prototype.at(i)`: the index is truncated toward zero and a
negative index counts back from the end; `none` models `undefined`. -/
def jsListAt {α : Type} (xs : List α) (q : ℚ) : Option α :=
  let i := jsTrunc q
  let j := if i < 0 then i + xs.length else i
  if j < 0 then none else xs[j.toNat]?

/-- Hex digit character for a digit value, as produced by
`BigInt.prototype.toString(16)` (lowercase). -/
def hexDigitChar (d : ℕ) : Char :=
  if d < 10 then Char.ofNat (48 + d) else Char.ofNat (87 + d)

/-- Value of a hex digit character; `BigInt("0x…")` accepts both cases. -/
def hexDigitVal (c : Char) : Option ℕ :=
  if 48 ≤ c.toNat ∧ c.toNat ≤ 57 then some (c.toNat - 48)
  else if 97 ≤ c.toNat ∧ c.toNat ≤ 102 then some (c.toNat - 87)
  else if 65 ≤ c.toNat ∧ c.toNat ≤ 70 then some (c.toNat - 55)
  else none

/-- Minimal lowercase base-16 representation of a natural number, as produced
by `BigInt.prototype.toString(16)` on a non-negative value. -/
def toHexString (n : ℕ) : String :=
  if n = 0 then "0" else String.mk (((Nat.digits 16 n).reverse).map hexDigitChar)

/-- JS `BigInt.prototype.toString(16)`: a minus sign followed by the hex
magnitude for negative values. -/
def bigintToHex (n : ℤ) : String :=
  if n < 0 then "-" ++ toHexString n.natAbs else toHexString n.toNat

/-- All-or-nothing conversion of a character list to hex digit values. -/
def hexDigits? : List Char → Option (List ℕ)
  | [] => some []
  | c :: rest =>
    match hexDigitVal c, hexDigits? rest with
    | some d, some ds => some (d :: ds)
    | _, _ => none

/-- Parse of `BigInt("0x" ++ s)`, `none` modelling the thrown SyntaxError.
After the literal `0x` prefix every character must be a hex digit and at least
one digit must be present (whitespace trimming of `BigInt(string)` is not
modelled; it is unreachable from the encoder's output). -/
def hexParse (s : String) : Option ℕ :=
  if s.isEmpty then none
  else (hexDigits? s.data).map (fun ds => ds.foldl (fun a d => 16 * a + d) 0)

/-- Insertion of a keyed pair into a key-sorted list (comparison on the
property name only), auxiliary to `sortPairs`. -/
def orderedInsertKey {α : Type} (p : String × α) : List (String × α) → List (String × α)
  | [] => [p]
  | q :: rest => if p.1 ≤ q.1 then p :: q :: rest else q :: orderedInsertKey p rest

/-- The compile-time `Object.keys(spec.properties).sort()` of the encoder and
decoder factories: sorting of a property list lexicographically by property
name.  (JS sorts by UTF-16 code units; Lean's `String` order compares code
points, which agrees on all strings without surrogate pairs.) -/
def sortPairs {α : Type} : List (String × α) → List (String × α)
  | [] => []
  | p :: rest => orderedInsertKey p (sortPairs rest)

theorem orderedInsertKey_perm {α : Type} (p : String × α) (l : List (String × α)) :
    (orderedInsertKey p l).Perm (p :: l) := by
  induction l with
  | nil => simp [orderedInsertKey]
  | cons q rest ih =>
    by_cases h : p.1 ≤ q.1
    · simp [orderedInsertKey, h]
    · simp only [orderedInsertKey, if_neg h]
      exact (List.Perm.cons q ih).trans (List.Perm.swap p q rest)

theorem sortPairs_perm {α : Type} (l : List (String × α)) : (sortPairs l).Perm l := by
  induction l with
  | nil => simp [sortPairs]
  | cons p rest ih =>
    exact (orderedInsertKey_perm p (sortPairs rest)).trans (List.Perm.cons p ih)

theorem orderedInsertKey_pairwise {α : Type} (p : String × α) (l : List (String × α))
    (h : l.Pairwise (fun a b => a.1 ≤ b.1)) :
    (orderedInsertKey p l).Pairwise (fun a b => a.1 ≤ b.1) := by
  induction l with
  | nil => simp [orderedInsertKey]
  | cons q rest ih =>
    by_cases hpq : p.1 ≤ q.1
    · simp only [orderedInsertKey, if_pos hpq]
      refine List.Pairwise.cons ?_ h
      intro b hb
      rcases List.mem_cons.mp hb with hb1 | hb1
      · exact hb1 ▸ hpq
      · exact le_trans hpq ((List.pairwise_cons.mp h).1 b hb1)
    · simp only [orderedInsertKey, if_neg hpq]
      rcases List.pairwise_cons.mp h with ⟨hq, hrest⟩
      refine List.Pairwise.cons ?_ (ih hrest)
      intro b hb
      have hb2 := (orderedInsertKey_perm p rest).mem_iff.mp hb
      rcases List.mem_cons.mp hb2 with hb3 | hb3
      · subst hb3
        exact le_of_not_le hpq
      · exact hq b hb3

theorem sortPairs_pairwise {α : Type} (l : List (String × α)) :
    (sortPairs l).Pairwise (fun a b => a.1 ≤ b.1) := by
  induction l with
  | nil => simp [sortPairs]
  | cons p rest ih => exact orderedInsertKey_pairwise p _ ih

theorem mem_sortPairs {α : Type} {l : List (String × α)} {p : String × α} :
    p ∈ sortPairs l ↔ p ∈ l :=
  (sortPairs_perm l).mem_iff

theorem sortPairs_length {α : Type} (l : List (String × α)) :
    (sortPairs l).length = l.length :=
  (sortPairs_perm l).length_eq

/-!
The schema model (schema.ts).  A `CallbackSchemaItem` is one of five node
kinds, each with a `nullable` flag (`nullable?: boolean`, absent meaning
`false`).  The bare-string shorthand for a primitive kind is normalized by
`normalizeSchemaItem` into `{ type: kind }`; the embedding works with nodes
that are already in this normal form, so a shorthand `"number"` is
`.prim .number false`.  Schema property/option maps are modelled by their
(declaration-ordered) key/item lists; keys of a JS record are unique.
-/

inductive PrimKind where
  | number | string | boolean | bigint
deriving DecidableEq

/-- The string naming a primitive kind (`spec.type`, compared with `typeof`). -/
def PrimKind.jsName : PrimKind → String
  | .number => "number"
  | .string => "string"
  | .boolean => "boolean"
  | .bigint => "bigint"

/-- A literal enum value (`EnumValue = number | string | boolean | bigint`). -/
inductive Prim where
  | num (q : ℚ) : Prim
  | str (s : String) : Prim
  | bool (b : Bool) : Prim
  | bigint (n : ℤ) : Prim
deriving DecidableEq

def Prim.toValue : Prim → Value
  | .num q => .num q
  | .str s => .str s
  | .bool b => .bool b
  | .bigint n => .bigint n

/-- JS strict equality `p === v` between an enum literal and a payload value
(`spec.enum.includes(payload)` / `spec.enum.indexOf` membership tests). -/
def Prim.jsEqual : Prim → Value → Bool
  | .num q, .num q2 => q = q2
  | .str s, .str s2 => s = s2
  | .bool b, .bool b2 => b = b2
  | .bigint n, .bigint n2 => n = n2
  | _, _ => false

/-- JS `String(p)` on an enum literal (used by `spec.enum.join(", ")`);
number formatting is abstracted to exact integer/fraction printing. -/
def Prim.jsString : Prim → String
  | .num q => if q.den = 1 then toString q.num else toString q
  | .str s => s
  | .bool b => if b then "true" else "false"
  | .bigint n => toString n

inductive SchemaItem where
  | prim (kind : PrimKind) (nullable : Bool) : SchemaItem
  | array (nullable : Bool) (items : SchemaItem) : SchemaItem
  | object (nullable : Bool) (properties : List (String × SchemaItem)) : SchemaItem
  | union (nullable : Bool) (options : List (String × SchemaItem)) : SchemaItem
  | enum (nullable : Bool) (values : List Prim) : SchemaItem

/-- A `CallbackSchema`: a record of named schema items. -/
def CallbackSchema : Type := List (String × SchemaItem)

/-- First (unique-key) lookup in an option/property record, modelling
`spec.options[t]` / `children[t]`. -/
def findOption : List (String × SchemaItem) → String → Option SchemaItem
  | [], _ => none
  | (k, cs) :: rest, t => if k = t then some cs else findOption rest t

/-- Lookup returning the 0-based declaration index together with the item,
modelling `Object.keys(spec.options).indexOf(t)`. -/
def findIdxOption : List (String × SchemaItem) → String → Option (ℕ × SchemaItem)
  | [], _ => none
  | (k, cs) :: rest, t =>
    if k = t then some (0, cs)
    else (findIdxOption rest t).map (fun p => (p.1 + 1, p.2))

theorem findIdxOption_sizeOf {l : List (String × SchemaItem)} {t : String} {i : ℕ}
    {cs : SchemaItem} (h : findIdxOption l t = some (i, cs)) : sizeOf cs < sizeOf l := by
  induction l generalizing i with
  | nil => simp [findIdxOption] at h
  | cons p rest ih =>
    cases p with
    | mk k c =>
      by_cases hk : k = t
      · simp [findIdxOption, hk] at h
        rcases h with ⟨h1, h2⟩
        subst h2
        simp
        omega
      · rw [findIdxOption, if_neg hk] at h
        rcases Option.map_eq_some'.mp h with ⟨⟨j, cs2⟩, hfind, heq⟩
        cases heq
        have h3 : sizeOf cs2 < sizeOf rest := ih hfind
        change sizeOf cs2 < _
        simp
        omega

theorem sizeOf_sortPairs_schema (l : List (String × SchemaItem)) :
    sizeOf (sortPairs l) = sizeOf l :=
  List.Perm.sizeOf_eq_sizeOf (sortPairs_perm l)

theorem sizeOf_lt_of_mem_pairs {l : List (String × SchemaItem)} {p : String × SchemaItem}
    (h : p ∈ l) : sizeOf p.2 < sizeOf l := by
  have h1 := List.sizeOf_lt_of_mem h
  have h2 : sizeOf p.2 < sizeOf p := by
    cases p with
    | mk k cs => simp
    
  omega

theorem findOption_sizeOf {l : List (String × SchemaItem)} {t : String} {cs : SchemaItem}
    (h : findOption l t = some cs) : sizeOf cs < sizeOf l := by
  induction l with
  | nil => simp [findOption] at h
  | cons p rest ih =>
    cases p with
    | mk k c =>
      by_cases hk : k = t
      · simp [findOption, hk] at h
        subst h
        simp
        omega
      · simp [findOption, hk] at h
        have := ih h
        simp
        omega

/-!
Validator (validator.ts).  `validateItem s v` is the compiled closure
`getValidator(s)` applied to `v`; `validateElems` and `validateProps` are the
per-element / per-property error-collecting `flatMap`s of the array and object
validators (property records have unique keys, so iterating the key/item pairs
is the iteration over `Object.keys`).
-/

inductive PathItem where
  | key (s : String) : PathItem
  | idx (n : ℕ) : PathItem
deriving DecidableEq

structure SchemaValidationError where
  path : List PathItem
  description : String
  found : Value

inductive ValidationResult where
  | success : ValidationResult
  | failure (errors : List SchemaValidationError) : ValidationResult

/-- Mirrors `checkNullability`: an error iff the spec is non-nullable and the
payload is `null`. -/
def checkNullability (nullable : Bool) (payload : Value) : Option SchemaValidationError :=
  if !nullable && payload.isNull then
    some ⟨[], "Unexpected null on non-nullable field", payload⟩
  else none

/-- Mirrors `checkPrimitive`: nullability first, then the `typeof` check. -/
def checkPrimitive (kind : PrimKind) (nullable : Bool) (payload : Value) : ValidationResult :=
  match checkNullability nullable payload with
  | some e => .failure [e]
  | none =>
    if !payload.isNull && payload.jsTypeof != kind.jsName then
      .failure [⟨[], "Expected " ++ kind.jsName, payload⟩]
    else .success

/-- Errors of a child validation result, each prefixed with the edge leading
to the child (`childRes.success ? [] : childRes.errors.map(...)`). -/
def childErrors (pi2 : PathItem) : ValidationResult → List SchemaValidationError
  | .success => []
  | .failure es => es.map (fun e => { e with path := pi2 :: e.path })

mutual

def validateItem : SchemaItem → Value → ValidationResult
  | .prim kind nullable, v => checkPrimitive kind nullable v
  | .array nullable items, v =>
    match checkNullability nullable v with
    | some e => .failure [e]
    | none =>
      match v with
      | .null => .success
      | .arr xs =>
        let errors := validateElems items xs 0
        if errors.isEmpty then .success else .failure errors
      | v => .failure [⟨[], "Expected array", v⟩]
  | .object nullable props, v =>
    match checkNullability nullable v with
    | some e => .failure [e]
    | none =>
      match v with
      | .null => .success
      | .obj fields =>
        if !(props.all (fun p => hasField fields p.1)) then
          .failure [⟨[], "Some keys are missing from the object", .obj fields⟩]
        else
          let errors := validateProps props fields
          if errors.isEmpty then .success else .failure errors
      | v => .failure [⟨[], "Expected object", v⟩]
  | .union nullable opts, v =>
    match checkNullability nullable v with
    | some e => .failure [e]
    | none =>
      match v with
      | .null => .success
      | .obj fields =>
        if !(hasField fields "type" && hasField fields "data") then
          .failure [⟨[], "Expected type and data keys", .obj fields⟩]
        else
          match (getField fields "type").getD .null with
          | .str t =>
            match h : findOption opts t with
            | some cs => validateItem cs ((getField fields "data").getD .null)
            | none => .failure [⟨[], "Invalid union type", .obj fields⟩]
          | _ => .failure [⟨[], "Invalid union type", .obj fields⟩]
      | v => .failure [⟨[], "Expected object", v⟩]
  | .enum nullable vals, v =>
    match checkNullability nullable v with
    | some e => .failure [e]
    | none =>
      if v.isNull then .success
      else if vals.any (fun p => p.jsEqual v) then .success
      else
        .failure
          [⟨[], "Expected one of " ++ String.intercalate ", " (vals.map Prim.jsString), v⟩]
termination_by s _ => (sizeOf s, 0)
decreasing_by
  all_goals simp only [Prod.lex_def]
  all_goals first
  | omega
  | (left; simp <;> omega)
  | (left; have h1 := findOption_sizeOf h; simp <;> omega)
  | (right; simp <;> omega)

def validateElems : SchemaItem → List Value → ℕ → List SchemaValidationError
  | _, [], _ => []
  | items, x :: rest, i =>
    childErrors (.idx i) (validateItem items x) ++ validateElems items rest (i + 1)
termination_by items xs _ => (sizeOf items, xs.length + 1)
decreasing_by
  all_goals simp only [Prod.lex_def]
  all_goals first
  | omega
  | (left; simp <;> omega)
  | (right; simp <;> omega)

def validateProps : List (String × SchemaItem) → List (String × Value) → List SchemaValidationError
  | [], _ => []
  | (k, cs) :: rest, fields =>
    childErrors (.key k) (validateItem cs ((getField fields k).getD .null)) ++
      validateProps rest fields
termination_by props _ => (sizeOf props, 0)
decreasing_by
  all_goals simp only [Prod.lex_def]
  all_goals first
  | omega
  | (left; simp <;> omega)
  | (right; simp <;> omega)

end

/-- Result type of the compiled top-level validator (`{success, data/errors}`). -/
inductive CallbackSchemaValidationResult where
  | success (data : Value) : CallbackSchemaValidationResult
  | failure (errors : List SchemaValidationError) : CallbackSchemaValidationResult

/-- Mirrors `getSchemaValidator`: the whole schema is validated as an implicit
non-nullable object node, and on success the payload itself is returned. -/
def getSchemaValidator (schema : CallbackSchema) (payload : Value) :
    CallbackSchemaValidationResult :=
  match validateItem (.object false schema) payload with
  | .success => .success payload
  | .failure es => .failure es

/-!
Encoder (encoder.ts).  `encodeItem s v` is the compiled closure
`getEncoder(s)` applied to `v`.  Exceptions thrown by the encoder
(`throw new Error(...)`) are modelled by `Except.error` carrying the message.
The object encoder factory sorts the property names at compile time
(`Object.keys(spec.properties).sort()`); the embedding applies the same
`sortPairs` at the object node.  The `union` and `enum` entries of the
`encoders` factory record are not present in the extracted sources (only
their tests are); they are modelled from the spec, see their cases below.
-/

/-- Modelled from the spec: the `enum` entry of the `encoders` factory record
of encoder.ts is missing from the extracted sources (only its tests are
present).  Per the spec, the enum encoder maps `null` to the sentinel code `0`
and a non-null value to its 1-based position in the declared literal list
(first occurrence, an `indexOf` membership by strict equality); a value that
is not in the list is a contract violation and aborts the encode. -/
def encodersEnum (vals : List Prim) (v : Value) : Except String Value :=
  match v with
  | .null => .ok (.num 0)
  | v =>
    match vals.findIdx? (fun p => p.jsEqual v) with
    | some i => .ok (.num ((i : ℚ) + 1))
    | none => .error "Invalid enum value"

mutual

def encodeItem : SchemaItem → Value → Except String Value
  | .prim .boolean _, v =>
    match v with
    | .null => .ok (.num 2)
    | .bool b => .ok (.num (if b then 1 else 0))
    | .num q => .ok (.num q)
    | .bigint n => .ok (.num (n : ℚ))
    | _ => .error "NaN"
  | .prim .number _, v => .ok v
  | .prim .string _, v => .ok v
  | .prim .bigint _, v =>
    match v with
    | .null => .ok .null
    | .bigint n => .ok (.str (bigintToHex n))
    | _ => .error "TypeError"
  | .array _ items, v =>
    match v with
    | .null => .ok .null
    | .arr xs =>
      match encodeList items xs with
      | .error e => .error e
      | .ok ws => .ok (.arr ws)
    | _ => .error "Expected an array"
  | .object _ props, v =>
    match v with
    | .null => .ok .null
    | .obj fields =>
      match encodeProps (sortPairs props) fields with
      | .error e => .error e
      | .ok ws => .ok (.arr ws)
    | _ => .error "Expected an object"
  | .union _ opts, v => encodersUnion opts v
  | .enum _ vals, v => encodersEnum vals v
termination_by s _ => (sizeOf s, 0)
decreasing_by
  all_goals simp only [Prod.lex_def]
  all_goals first
  | omega
  | (left; simp <;> omega)
  | (left; rw [sizeOf_sortPairs_schema]; simp <;> omega)
  | (left; have h1 := findIdxOption_sizeOf h; simp <;> omega)
  | (right; simp <;> omega)

/-- Modelled from the spec: the `union` entry of the `encoders` factory record
of encoder.ts is missing from the extracted sources (only its tests are
present).  Per the spec, the union encoder maps `null` to wire `null` and a
union payload to the two-element sequence `[tagIndex, childEncode(data)]`,
where `tagIndex` is the 0-based position of the tag name in declaration order;
the discriminant field of a union payload is named `type` (schema.ts
`InferItem`, encoder tests).  A wrong-shape payload aborts the encode. -/
def encodersUnion (opts : List (String × SchemaItem)) (v : Value) : Except String Value :=
  match v with
  | .null => .ok .null
  | .obj fields =>
    match (getField fields "type").getD .null with
    | .str t =>
      match h : findIdxOption opts t with
      | some (i, cs) =>
        match encodeItem cs ((getField fields "data").getD .null) with
        | .error e => .error e
        | .ok w => .ok (.arr [.num (i : ℚ), w])
      | none => .error "Invalid union type"
    | _ => .error "Invalid union type"
  | _ => .error "Expected an object"
termination_by (sizeOf opts, 1)
decreasing_by
  all_goals simp only [Prod.lex_def]
  left
  have h1 := findIdxOption_sizeOf h
  omega

def encodeList : SchemaItem → List Value → Except String (List Value)
  | _, [] => .ok []
  | items, x :: rest =>
    match encodeItem items x with
    | .error e => .error e
    | .ok w =>
      match encodeList items rest with
      | .error e => .error e
      | .ok ws => .ok (w :: ws)
termination_by items xs => (sizeOf items, xs.length + 1)
decreasing_by
  all_goals simp only [Prod.lex_def]
  all_goals first
  | omega
  | (left; simp <;> omega)
  | (right; simp <;> omega)

def encodeProps : List (String × SchemaItem) → List (String × Value) → Except String (List Value)
  | [], _ => .ok []
  | (k, cs) :: rest, fields =>
    match encodeItem cs ((getField fields k).getD .null) with
    | .error e => .error e
    | .ok w =>
      match encodeProps rest fields with
      | .error e => .error e
      | .ok ws => .ok (w :: ws)
termination_by props _ => (sizeOf props, 0)
decreasing_by
  all_goals simp only [Prod.lex_def]
  all_goals first
  | omega
  | (left; simp <;> omega)
  | (right; simp <;> omega)

end

/-- Mirrors `getSchemaEncoder`: the whole schema is compiled as an implicit
non-nullable object node. -/
def getSchemaEncoder (schema : CallbackSchema) (payload : Value) : Except String Value :=
  encodeItem (.object false schema) payload

/-!
Decoder (decoder.ts).  `decodeItem s v` is the compiled closure
`getDecoder(s)` applied to the wire value `v`.  The decoder never throws for
malformed wire data: the only throwing operation it contains, the
`BigInt(`0x…`)` conversion, is wrapped in a `try`/`catch` that turns the
SyntaxError into the poison marker.  To make that verifiable the embedding is
`Except`-valued, with `Except.error` modelling an escaped JS exception.
-/

mutual

def decodeItem : SchemaItem → Value → Except String Value
  | .prim .boolean _, v =>
    match v with
    | .num q =>
      .ok (match jsListAt [Value.bool false, Value.bool true, Value.null] q with
        | some r => r
        | none => poison)
    | _ => .ok poison
  | .prim .bigint _, v =>
    match v with
    | .null => .ok .null
    | .str s =>
      .ok (match hexParse s with
        | some n => .bigint (n : ℤ)
        | none => poison)
    | _ => .ok poison
  | .prim .number _, v => .ok v
  | .prim .string _, v => .ok v
  | .array _ items, v =>
    match v with
    | .null => .ok .null
    | .arr xs =>
      match decodeList items xs with
      | .error e => .error e
      | .ok ws => .ok (.arr ws)
    | _ => .ok poison
  | .object _ props, v =>
    match v with
    | .null => .ok .null
    | .arr xs =>
      if xs.length = (sortPairs props).length then
        match decodeProps (sortPairs props) xs with
        | .error e => .error e
        | .ok fs => .ok (.obj fs)
      else .ok poison
    | _ => .ok poison
  | .union _ opts, v => decodersUnion opts v
  | .enum _ vals, v =>
    match v with
    | .num q =>
      if q.den ≠ 1 then .ok poison
      else if q = 0 then .ok .null
      else
        let index := q.num - 1
        if index < 0 then .ok poison
        else
          .ok (match vals[index.toNat]? with
            | some p => p.toValue
            | none => poison)
    | _ => .ok poison
termination_by s _ => (sizeOf s, 0)
decreasing_by
  all_goals simp only [Prod.lex_def]
  all_goals first
  | omega
  | (left; simp <;> omega)
  | (left; rw [sizeOf_sortPairs_schema]; simp <;> omega)
  | (left
     have h1 : (k, cs) ∈ opts := by
       have h2 := List.getElem?_eq_some_iff.mp h
       rcases h2 with ⟨hlt, hget⟩
       exact hget ▸ List.getElem_mem hlt
     have h3 := sizeOf_lt_of_mem_pairs h1
     simp at h3 ⊢
     omega)
  | (right; simp <;> omega)

/-- Modelled from the spec: the `union` entry of the `decoders` factory record
of decoder.ts is missing from the extracted sources (only its tests are
present).  Per the spec, the union decoder maps wire `null` to `null` and a
two-element wire sequence to `{type, data}` by resolving `wireValue[0]` to a
tag name by its declaration-order index (a missing, negative, fractional or
out-of-range index resolves to no tag and poisons the node) and decoding
`wireValue[1]` with that tag's child decoder; the discriminant field of the
decoded value is named `type` (decoder tests, and the `type` key checked by
the union validator).  Any other wire shape is poisoned. -/
def decodersUnion (opts : List (String × SchemaItem)) (v : Value) : Except String Value :=
  match v with
  | .null => .ok .null
  | .arr [x, d] =>
    match x with
    | .num q =>
      if q.den ≠ 1 then .ok poison
      else if q.num < 0 then .ok poison
      else
        match h : opts[q.num.toNat]? with
        | none => .ok poison
        | some (k, cs) =>
          match decodeItem cs d with
          | .error e => .error e
          | .ok w => .ok (.obj [("type", .str k), ("data", w)])
    | _ => .ok poison
  | _ => .ok poison
termination_by (sizeOf opts, 1)
decreasing_by
  all_goals simp only [Prod.lex_def]
  left
  have h1 : (k, cs) ∈ opts := by
    have h2 := List.getElem?_eq_some_iff.mp h
    rcases h2 with ⟨hlt, hget⟩
    exact hget ▸ List.getElem_mem hlt
  have h3 := sizeOf_lt_of_mem_pairs h1
  simp at h3 ⊢
  omega

def decodeList : SchemaItem → List Value → Except String (List Value)
  | _, [] => .ok []
  | items, x :: rest =>
    match decodeItem items x with
    | .error e => .error e
    | .ok w =>
      match decodeList items rest with
      | .error e => .error e
      | .ok ws => .ok (w :: ws)
termination_by items xs => (sizeOf items, xs.length + 1)
decreasing_by
  all_goals simp only [Prod.lex_def]
  all_goals first
  | omega
  | (left; simp <;> omega)
  | (right; simp <;> omega)

def decodeProps : List (String × SchemaItem) → List Value → Except String (List (String × Value))
  | [], _ => .ok []
  | (k, cs) :: rest, xs =>
    match decodeItem cs (xs.headD .null) with
    | .error e => .error e
    | .ok w =>
      match decodeProps rest (xs.tailD []) with
      | .error e => .error e
      | .ok fs => .ok ((k, w) :: fs)
termination_by props _ => (sizeOf props, 0)
decreasing_by
  all_goals simp only [Prod.lex_def]
  all_goals first
  | omega
  | (left; simp <;> omega)
  | (right; simp <;> omega)

end

/-- Mirrors `getSchemaDecoder`: the whole schema is compiled as an implicit
non-nullable object node. -/
def getSchemaDecoder (schema : CallbackSchema) (payload : Value) : Except String Value :=
  decodeItem (.object false schema) payload

/-!
Canonicalization.  `canonItem s v` is the specification-side normal form of a
schema-conforming value used to state the round-trip property: per §4.2/§4.3
of the spec, `decode(encode(v))` rebuilds objects with one entry per declared
property in lexicographic key order (a missing property reappearing as an
explicit `null`, extra properties dropped), rebuilds a union value as a
`type`/`data` record in that field order, and leaves every other conforming
value unchanged.  This definition follows the spec's words and is compared
against the composition of the source-derived encoder and decoder.
-/

mutual

def canonItem : SchemaItem → Value → Value
  | .prim _ _, v => v
  | .enum _ _, v => v
  | .array _ items, v =>
    match v with
    | .arr xs => .arr (canonList items xs)
    | v => v
  | .object _ props, v =>
    match v with
    | .obj fields => .obj (canonProps (sortPairs props) fields)
    | v => v
  | .union _ opts, v =>
    match v with
    | .obj fields =>
      match (getField fields "type").getD .null with
      | .str t =>
        match h : findOption opts t with
        | some cs => .obj [("type", .str t), ("data", canonItem cs ((getField fields "data").getD .null))]
        | none => .obj fields
      | _ => .obj fields
    | v => v
termination_by s _ => (sizeOf s, 0)
decreasing_by
  all_goals simp only [Prod.lex_def]
  all_goals first
  | omega
  | (left; simp <;> omega)
  | (left; rw [sizeOf_sortPairs_schema]; simp <;> omega)
  | (left; have h1 := findOption_sizeOf h; simp <;> omega)
  | (right; simp <;> omega)

def canonList : SchemaItem → List Value → List Value
  | _, [] => []
  | items, x :: rest => canonItem items x :: canonList items rest
termination_by items xs => (sizeOf items, xs.length + 1)
decreasing_by
  all_goals simp only [Prod.lex_def]
  all_goals first
  | omega
  | (left; simp <;> omega)
  | (right; simp <;> omega)

def canonProps : List (String × SchemaItem) → List (String × Value) → List (String × Value)
  | [], _ => []
  | (k, cs) :: rest, fields =>
    (k, canonItem cs ((getField fields k).getD .null)) :: canonProps rest fields
termination_by props _ => (sizeOf props, 0)
decreasing_by
  all_goals simp only [Prod.lex_def]
  all_goals first
  | omega
  | (left; simp <;> omega)
  | (right; simp <;> omega)

end

/-!
Sign restriction on big integers.  The source encoder renders a bigint with
`toString(16)`, whose output for a negative value (a leading minus sign) is
not accepted by the decoder's `BigInt("0x…")` parse; §4.2 specifies the hex
encoding only for the non-negative magnitude and §9 records negative bigints
as unsupported.  `bigintsNonNeg s v` holds when every bigint the schema can
reach inside `v` is non-negative.
-/

mutual

def bigintsNonNeg : SchemaItem → Value → Bool
  | .prim .bigint _, v =>
    match v with
    | .bigint n => 0 ≤ n
    | _ => true
  | .prim _ _, _ => true
  | .enum _ _, _ => true
  | .array _ items, v =>
    match v with
    | .arr xs => bigintsNonNegList items xs
    | _ => true
  | .object _ props, v =>
    match v with
    | .obj fields => bigintsNonNegProps props fields
    | _ => true
  | .union _ opts, v =>
    match v with
    | .obj fields =>
      match (getField fields "type").getD .null with
      | .str t =>
        match h : findOption opts t with
        | some cs => bigintsNonNeg cs ((getField fields "data").getD .null)
        | none => true
      | _ => true
    | _ => true
termination_by s _ => (sizeOf s, 0)
decreasing_by
  all_goals simp only [Prod.lex_def]
  all_goals first
  | omega
  | (left; simp <;> omega)
  | (left; have h1 := findOption_sizeOf h; simp <;> omega)
  | (right; simp <;> omega)

def bigintsNonNegList : SchemaItem → List Value → Bool
  | _, [] => true
  | items, x :: rest => bigintsNonNeg items x && bigintsNonNegList items rest
termination_by items xs => (sizeOf items, xs.length + 1)
decreasing_by
  all_goals simp only [Prod.lex_def]
  all_goals first
  | omega
  | (left; simp <;> omega)
  | (right; simp <;> omega)

def bigintsNonNegProps : List (String × SchemaItem) → List (String × Value) → Bool
  | [], _ => true
  | (k, cs) :: rest, fields =>
    bigintsNonNeg cs ((getField fields k).getD .null) && bigintsNonNegProps rest fields
termination_by props _ => (sizeOf props, 0)
decreasing_by
  all_goals simp only [Prod.lex_def]
  all_goals first
  | omega
  | (left; simp <;> omega)
  | (right; simp <;> omega)

end

/-!
Transport layer (callback-data.ts, utils.ts).  `pack` serializes validated
data into `` `${prefix}.${serialized}` `` and enforces the 64-character
ceiling; `unpackSafe`/`unpack` reverse it.  The JS built-ins `JSON.stringify`
(restricted here to the wire values the encoder emits) and `JSON.parse` are
not part of this repository; they are passed in as function parameters
`stringify` and `parse`, with `parse` returning `none` to model a thrown
SyntaxError.  The `Except String` layer models any JS exception escaping the
function (the decoder provably never supplies one).
-/

def CALLBACK_DATA_MAX_LENGTH : ℕ := 64

/-- Mirrors `splitWithTail`: split on the separator, keeping at most `limit`
parts, the last one re-joining the tail. -/
def splitWithTail (str sep : String) (limit : ℕ) : List String :=
  let parts := str.splitOn sep
  parts.take (limit - 1) ++ [String.intercalate sep (parts.drop (limit - 1))]

/-- The `MaybeNestedCallbackData` input type of utils.ts. -/
inductive MaybeNestedCallbackData where
  | plain (s : String) : MaybeNestedCallbackData
  | dataField (s : String) : MaybeNestedCallbackData
  | callbackQuery (s : String) : MaybeNestedCallbackData

/-- Mirrors `normalizeCallbackData`. -/
def normalizeCallbackData : MaybeNestedCallbackData → String
  | .plain s => s
  | .dataField s => s
  | .callbackQuery s => s

/-- The two failure shapes of `CallbackUnpackSafeError`. -/
inductive CallbackUnpackSafeError where
  | validationError (errors : List SchemaValidationError) : CallbackUnpackSafeError
  | malformedInput : CallbackUnpackSafeError

/-- The `CallbackUnpackSafeReturnType` of callback-data.ts. -/
inductive CallbackUnpackSafeReturnType where
  | success (data : Value) : CallbackUnpackSafeReturnType
  | failure (e : CallbackUnpackSafeError) : CallbackUnpackSafeReturnType

/-- The error class thrown by `unpack`, wrapping the safe-variant failure. -/
structure CallbackUnpackError where
  unpackError : CallbackUnpackSafeError

/-- Mirrors `pack` of `createCallbackData(prefix, schema)`: validate, encode,
serialize (`JSON.stringify` then stripping the outer brackets), prepend the
prefix, and enforce the length ceiling.  `stringify` stands for
`JSON.stringify`; string length is modelled by `String.length`. -/
def pack (stringify : Value → String) (pfx : String) (schema : CallbackSchema)
    (data : Value) : Except String String :=
  match getSchemaValidator schema data with
  | .failure _ => .error "Data to pack doesn\x27t conform to schema"
  | .success d =>
    match getSchemaEncoder schema d with
    | .error e => .error e
    | .ok encoded =>
      let serialized := stringify encoded
      let serialized := (serialized.drop 1).dropRight 1
      let packed := pfx ++ "." ++ serialized
      if packed.length > CALLBACK_DATA_MAX_LENGTH then
        .error "Callback data exceeds maximum length"
      else .ok packed

/-- Mirrors `unpackSafe` of `createCallbackData(prefix, schema)`:  normalize
the callback, split off the part after the first `.`, parse `[serialized]`
(a parse failure is caught as MALFORMED_INPUT), decode, then validate
(a validation failure is returned as VALIDATION_ERROR). -/
def unpackSafe (parse : String → Option Value) (schema : CallbackSchema)
    (callback : MaybeNestedCallbackData) : Except String CallbackUnpackSafeReturnType :=
  let cb := normalizeCallbackData callback
  let serialized := (splitWithTail cb "." 2).getD 1 ""
  match parse ("[" ++ serialized ++ "]") with
  | none => .ok (.failure .malformedInput)
  | some encoded =>
    match getSchemaDecoder schema encoded with
    | .error e => .error e
    | .ok decoded =>
      match getSchemaValidator schema decoded with
      | .failure es => .ok (.failure (.validationError es))
      | .success d => .ok (.success d)

/-- Mirrors `unpack`: delegate to `unpackSafe` and throw a
`CallbackUnpackError` wrapping the failure when it is unsuccessful.  The
inner `Except CallbackUnpackError` is the documented throw of `unpack`; the
outer `Except String` is inherited from `unpackSafe`. -/
def unpack (parse : String → Option Value) (schema : CallbackSchema)
    (callback : MaybeNestedCallbackData) :
    Except String (Except CallbackUnpackError Value) :=
  match unpackSafe parse schema callback with
  | .error e => .error e
  | .ok (.failure err) => .ok (.error ⟨err⟩)
  | .ok (.success d) => .ok (.ok d)

/-!
Positions a schema descends into.  `DescendsStep (s, v) (s2, w)` holds when
the validator for node `s`, applied to `v`, recursively invokes the validator
for child node `s2` on the sub-value `w`: array elements, declared object
properties (only reached when every declared key is present), and the `data`
field of a union value with a declared tag.
-/

inductive DescendsStep : SchemaItem × Value → SchemaItem × Value → Prop where
  | arrayElem {nb : Bool} {items : SchemaItem} {xs : List Value} {x : Value}
      (hx : x ∈ xs) :
      DescendsStep (.array nb items, .arr xs) (items, x)
  | objectProp {nb : Bool} {props : List (String × SchemaItem)}
      {fields : List (String × Value)} {k : String} {cs : SchemaItem} {w : Value}
      (hall : (props.all fun p => hasField fields p.1) = true)
      (hmem : (k, cs) ∈ props) (hget : getField fields k = some w) :
      DescendsStep (.object nb props, .obj fields) (cs, w)
  | unionData {nb : Bool} {opts : List (String × SchemaItem)}
      {fields : List (String × Value)} {t : String} {cs : SchemaItem}
      (hktype : hasField fields "type" = true) (hkdata : hasField fields "data" = true)
      (hty : (getField fields "type").getD .null = .str t)
      (hfind : findOption opts t = some cs) :
      DescendsStep (.union nb opts, .obj fields) (cs, (getField fields "data").getD .null)

/-! Arithmetic and hex-string helper lemmas. -/

theorem jsTrunc_intCast (n : ℤ) : jsTrunc (n : ℚ) = n := by
  unfold jsTrunc
  by_cases h : (0 : ℚ) ≤ (n : ℚ)
  · rw [if_pos h, Int.floor_intCast]
  · rw [if_neg h, Int.ceil_intCast]

theorem hexDigitVal_hexDigitChar {d : ℕ} (h : d < 16) :
    hexDigitVal (hexDigitChar d) = some d := by
  interval_cases d <;> decide

theorem hexDigits_map_hexDigitChar {L : List ℕ} (h : ∀ d ∈ L, d < 16) :
    hexDigits? (L.map hexDigitChar) = some L := by
  induction L with
  | nil => simp [hexDigits?]
  | cons d rest ih =>
    have hd : d < 16 := h d (List.mem_cons_self d rest)
    have hrest : ∀ x ∈ rest, x < 16 := fun x hx => h x (List.mem_cons_of_mem d hx)
    simp [hexDigits?, hexDigitVal_hexDigitChar hd, ih hrest]

theorem foldl_hex_reverse (L : List ℕ) (a : ℕ) :
    L.reverse.foldl (fun x d => 16 * x + d) a = a * 16 ^ L.length + Nat.ofDigits 16 L := by
  induction L generalizing a with
  | nil => simp
  | cons d rest ih =>
    simp only [List.reverse_cons, List.foldl_append, List.foldl_cons, List.foldl_nil,
      List.length_cons, Nat.ofDigits_cons]
    rw [ih]
    ring

theorem hexParse_mk {L : List Char} (hne : L ≠ []) :
    hexParse (String.mk L) = (hexDigits? L).map (fun ds => ds.foldl (fun a d => 16 * a + d) 0) := by
  have hempty : (String.mk L).isEmpty = false := by
    rw [Bool.eq_false_iff]
    intro hc
    have h2 := (String.isEmpty_iff _).mp hc
    apply hne
    have h3 := congrArg String.data h2
    simpa using h3
  rw [hexParse, hempty]
  simp only [Bool.false_eq_true, if_false]

theorem hexParse_toHexString (n : ℕ) : hexParse (toHexString n) = some n := by
  by_cases h0 : n = 0
  · subst h0
    decide
  · rw [toHexString, if_neg h0]
    have hdig2 : ∀ d ∈ (Nat.digits 16 n).reverse, d < 16 := by
      intro d hd
      exact Nat.digits_lt_base (by norm_num) (List.mem_reverse.mp hd)
    have hne : (Nat.digits 16 n) ≠ [] := Nat.digits_ne_nil_iff_ne_zero.mpr h0
    have hne2 : ((Nat.digits 16 n).reverse).map hexDigitChar ≠ [] := by
      intro hcon
      apply hne
      simpa using hcon
    rw [hexParse_mk hne2, hexDigits_map_hexDigitChar hdig2]
    have hfold := foldl_hex_reverse (Nat.digits 16 n) 0
    simp [hfold, Nat.ofDigits_digits]

theorem hexParse_bigintToHex {n : ℤ} (h : 0 ≤ n) : hexParse (bigintToHex n) = some n.toNat := by
  rw [bigintToHex, if_neg (by omega)]
  exact hexParse_toHexString n.toNat

/-! Small helper lemmas about lookups and literal tests. -/

theorem Prim.jsEqual_iff {p : Prim} {v : Value} : p.jsEqual v = true ↔ p.toValue = v := by
  cases p <;> cases v <;> simp [Prim.jsEqual, Prim.toValue]

theorem findOption_eq_map (opts : List (String × SchemaItem)) (t : String) :
    findOption opts t = (findIdxOption opts t).map (fun p => p.2) := by
  induction opts with
  | nil => simp [findOption, findIdxOption]
  | cons p rest ih =>
    cases p with
    | mk k c =>
      by_cases hk : k = t
      · simp [findOption, findIdxOption, hk]
      · simp only [findOption, findIdxOption, if_neg hk]
        rw [ih, Option.map_map]
        rfl

theorem findIdxOption_getElem {opts : List (String × SchemaItem)} {t : String} {i : ℕ}
    {cs : SchemaItem} (h : findIdxOption opts t = some (i, cs)) : opts[i]? = some (t, cs) := by
  induction opts generalizing i with
  | nil => simp [findIdxOption] at h
  | cons p rest ih =>
    cases p with
    | mk k c =>
      by_cases hk : k = t
      · subst hk
        simp [findIdxOption] at h
        rcases h with ⟨h1, h2⟩
        subst h1
        subst h2
        simp
      · rw [findIdxOption, if_neg hk] at h
        rcases Option.map_eq_some'.mp h with ⟨⟨j, cs2⟩, hfind, heq⟩
        have hj : j + 1 = i := congrArg Prod.fst heq
        have hcs : cs2 = cs := congrArg Prod.snd heq
        subst hcs
        subst hj
        simpa using ih hfind

theorem findIdxOption_of_findOption {opts : List (String × SchemaItem)} {t : String}
    {cs : SchemaItem} (h : findOption opts t = some cs) :
    ∃ i, findIdxOption opts t = some (i, cs) := by
  rw [findOption_eq_map] at h
  rcases Option.map_eq_some'.mp h with ⟨⟨i, cs2⟩, hfind, heq⟩
  simp at heq
  subst heq
  exact ⟨i, hfind⟩

theorem findIdx?_elem {α : Type} {pred : α → Bool} :
    ∀ {xs : List α} {i : ℕ}, xs.findIdx? pred = some i →
      ∃ p, xs[i]? = some p ∧ pred p = true := by
  intro xs
  induction xs with
  | nil => intro i h; simp [List.findIdx?] at h
  | cons x rest ih =>
    intro i h
    rw [List.findIdx?_cons] at h
    by_cases hx : pred x
    · simp [hx] at h
      subst h
      exact ⟨x, by simp, hx⟩
    · simp [hx] at h
      rcases h with ⟨j, hj, hij⟩
      subst hij
      rcases ih hj with ⟨p, hget, hp⟩
      exact ⟨p, by simpa using hget, hp⟩

theorem any_findIdx?_isSome {α : Type} {pred : α → Bool} {xs : List α}
    (h : xs.any pred = true) : ∃ i, xs.findIdx? pred = some i := by
  induction xs with
  | nil => simp at h
  | cons x rest ih =>
    rw [List.findIdx?_cons]
    by_cases hx : pred x
    · exact ⟨0, by simp [hx]⟩
    · simp [hx] at h
      have h2 : rest.any pred = true := by
        rcases h with ⟨y, hy, hpy⟩
        exact List.any_eq_true.mpr ⟨y, hy, hpy⟩
      rcases ih h2 with ⟨j, hj⟩
      exact ⟨j + 1, by simp [hx, hj]⟩

/-! Validator characterizations. -/

theorem checkNullability_of_not_null {nb : Bool} {v : Value} (h : v.isNull = false) :
    checkNullability nb v = none := by
  simp [checkNullability, h]

theorem checkNullability_true (v : Value) : checkNullability true v = none := by
  simp [checkNullability]

theorem checkNullability_false_null :
    checkNullability false .null =
      some ⟨[], "Unexpected null on non-nullable field", .null⟩ := by
  simp [checkNullability, Value.isNull]

theorem checkPrimitive_success_iff {k : PrimKind} {nb : Bool} {v : Value} :
    checkPrimitive k nb v = .success ↔
      ((v = .null ∧ nb = true) ∨ (v ≠ .null ∧ v.jsTypeof = k.jsName)) := by
  cases v <;> cases nb <;>
    simp [checkPrimitive, checkNullability, Value.isNull, Value.jsTypeof]


/-- The validator never reports an empty error list. -/
theorem validateItem_failure_ne_nil :
    ∀ n (s : SchemaItem) (v : Value) (es : List SchemaValidationError),
      sizeOf s ≤ n → validateItem s v = .failure es → es ≠ [] := by
  intro n
  induction n using Nat.strong_induction_on with
  | _ n ih =>
    intro s v es hsz h
    cases s with
    | prim k nb =>
      simp only [validateItem] at h
      rcases hcn : checkNullability nb v with _ | e <;> simp [checkPrimitive, hcn] at h
      · split at h <;> simp_all
        all_goals (intro hc; subst hc; simp at h)
      · intro hc; subst hc; simp at h
    | array nb items =>
      rcases hcn : checkNullability nb v with _ | e <;>
        cases v <;> simp [validateItem, hcn] at h <;>
        (try (split at h <;> simp_all)) <;>
        (try (intro hc; subst hc; simp at h))
    | object nb props =>
      rcases hcn : checkNullability nb v with _ | e <;>
        cases v <;> simp [validateItem, hcn] at h <;>
        (try (split at h <;> simp_all)) <;>
        (try (split at h <;> simp_all)) <;>
        (try (intro hc; subst hc; simp at h))
    | union nb opts =>
      rcases hcn : checkNullability nb v with _ | e
      · cases v <;> simp [validateItem, hcn] at h <;>
          (try (intro hc; subst hc; simp at h))
        · split at h <;> (try (intro hc; subst hc; simp at h))
          split at h <;> (try (intro hc; subst hc; simp at h))
          split at h <;> (try (intro hc; subst hc; simp at h))
          rename_i cs heq
          have hlt : sizeOf cs < n := by
            have h1 := findOption_sizeOf heq
            simp at hsz
            omega
          exact ih (sizeOf cs) hlt cs _ es (le_refl _) h
      · cases v <;> simp [validateItem, hcn] at h <;>
          (try (intro hc; subst hc; simp at h))
    | enum nb vals =>
      rcases hcn : checkNullability nb v with _ | e <;>
        cases v <;> simp [validateItem, hcn] at h <;>
        (try (split at h <;> simp_all [Value.isNull])) <;>
        (try (split at h <;> simp_all [Value.isNull])) <;>
        (try (intro hc; subst hc; simp at h))

theorem validateItem_failure_ne_nil2 {s : SchemaItem} {v : Value}
    {es : List SchemaValidationError} (h : validateItem s v = .failure es) : es ≠ [] :=
  validateItem_failure_ne_nil (sizeOf s) s v es (le_refl _) h

theorem childErrors_eq_nil_iff {pi2 : PathItem} {s : SchemaItem} {v : Value} :
    childErrors pi2 (validateItem s v) = [] ↔ validateItem s v = .success := by
  rcases hr : validateItem s v with _ | es
  · simp [childErrors]
  · simp [childErrors]
    exact validateItem_failure_ne_nil2 hr

theorem validateElems_eq_nil_iff {items : SchemaItem} {xs : List Value} {i : ℕ} :
    validateElems items xs i = [] ↔ ∀ x ∈ xs, validateItem items x = .success := by
  induction xs generalizing i with
  | nil => simp [validateElems]
  | cons x rest ih =>
    simp only [validateElems, List.append_eq_nil, childErrors_eq_nil_iff]
    constructor
    · rintro ⟨h1, h2⟩
      intro y hy
      rcases List.mem_cons.mp hy with hy1 | hy1
      · exact hy1 ▸ h1
      · exact (ih.mp h2) y hy1
    · intro hall
      exact ⟨hall x (List.mem_cons_self x rest),
        ih.mpr (fun y hy => hall y (List.mem_cons_of_mem x hy))⟩

theorem validateProps_eq_nil_iff {props : List (String × SchemaItem)}
    {fields : List (String × Value)} :
    validateProps props fields = [] ↔
      ∀ p ∈ props, validateItem p.2 ((getField fields p.1).getD .null) = .success := by
  induction props with
  | nil => simp [validateProps]
  | cons p rest ih =>
    cases p with
    | mk k cs =>
      simp only [validateProps, List.append_eq_nil, childErrors_eq_nil_iff]
      constructor
      · rintro ⟨h1, h2⟩
        intro q hq
        rcases List.mem_cons.mp hq with hq1 | hq1
        · subst hq1; exact h1
        · exact (ih.mp h2) q hq1
      · intro hall
        exact ⟨hall (k, cs) (List.mem_cons_self _ _),
          ih.mpr (fun q hq => hall q (List.mem_cons_of_mem _ hq))⟩

theorem validateItem_array_success {nb : Bool} {items : SchemaItem} {v : Value}
    (h : validateItem (.array nb items) v = .success) :
    v = .null ∨ ∃ xs, v = .arr xs ∧ ∀ x ∈ xs, validateItem items x = .success := by
  cases v
  case null => exact Or.inl rfl
  case arr xs =>
    refine Or.inr ⟨xs, rfl, ?_⟩
    rw [← validateElems_eq_nil_iff (i := 0)]
    simp [validateItem, checkNullability, Value.isNull] at h
    by_cases he : validateElems items xs 0 = []
    · exact he
    · simp [he] at h
  all_goals simp [validateItem, checkNullability, Value.isNull] at h

theorem validateItem_object_success {nb : Bool} {props : List (String × SchemaItem)} {v : Value}
    (h : validateItem (.object nb props) v = .success) :
    v = .null ∨ ∃ fields, v = .obj fields ∧
      (props.all (fun p => hasField fields p.1)) = true ∧
      ∀ p ∈ props, validateItem p.2 ((getField fields p.1).getD .null) = .success := by
  cases v
  case null => exact Or.inl rfl
  case obj fields =>
    refine Or.inr ⟨fields, rfl, ?_⟩
    simp only [validateItem, checkNullability, Value.isNull, Bool.and_false,
      Bool.false_eq_true, if_false] at h
    by_cases hk : (props.all fun p => hasField fields p.1) = true
    · refine ⟨hk, ?_⟩
      rw [← validateProps_eq_nil_iff]
      simp [hk] at h
      by_cases he : validateProps props fields = []
      · exact he
      · simp [he] at h
    · simp [hk] at h
  all_goals simp [validateItem, checkNullability, Value.isNull] at h

theorem validateItem_union_success {nb : Bool} {opts : List (String × SchemaItem)} {v : Value}
    (h : validateItem (.union nb opts) v = .success) :
    v = .null ∨ ∃ fields t cs, v = .obj fields ∧
      (getField fields "type").getD .null = .str t ∧
      findOption opts t = some cs ∧
      validateItem cs ((getField fields "data").getD .null) = .success := by
  cases v
  case null => exact Or.inl rfl
  case obj fields =>
    simp only [validateItem, checkNullability, Value.isNull, Bool.and_false,
      Bool.false_eq_true, if_false] at h
    by_cases hk : (hasField fields "type" && hasField fields "data") = true
    · simp [hk] at h
      rcases hty : (getField fields "type").getD .null with _ | q | t | b | m | _ | xs | fs
      case pos.str =>
        rw [hty] at h
        refine Or.inr ⟨fields, t, ?_⟩
        split at h
        · rename_i h2 cs heq
          injection heq with h3
          subst h3
          split at h
          · rename_i cs2 heq2
            exact ⟨cs2, rfl, hty, heq2, h⟩
          · exact absurd h (by simp)
        · rename_i hne
          split at h <;> simp_all
      all_goals (rw [hty] at h; split at h <;> simp_all)
    · simp [hk] at h
  all_goals simp [validateItem, checkNullability, Value.isNull] at h

theorem validateItem_enum_success {nb : Bool} {vals : List Prim} {v : Value}
    (h : validateItem (.enum nb vals) v = .success) :
    v = .null ∨ (v ≠ .null ∧ (vals.any fun p => p.jsEqual v) = true) := by
  by_cases hv : v = .null
  · exact Or.inl hv
  · refine Or.inr ⟨hv, ?_⟩
    have hnn : v.isNull = false := by
      cases v <;> simp [Value.isNull] at hv ⊢
    simp [validateItem, checkNullability, hnn] at h
    rw [List.any_eq_true]
    by_cases hany : ∃ x ∈ vals, x.jsEqual v = true
    · exact hany
    · simp [hany] at h

/-! List-level codec characterizations. -/

theorem encodeList_ok_of {items : SchemaItem} {xs : List Value}
    (h : ∀ x ∈ xs, ∃ w, encodeItem items x = .ok w) :
    ∃ ws, encodeList items xs = .ok ws ∧
      List.Forall₂ (fun x w => encodeItem items x = .ok w) xs ws := by
  induction xs with
  | nil => exact ⟨[], by simp [encodeList], List.Forall₂.nil⟩
  | cons x rest ih =>
    rcases h x (List.mem_cons_self x rest) with ⟨w, hw⟩
    rcases ih (fun y hy => h y (List.mem_cons_of_mem x hy)) with ⟨ws, hws, hfa⟩
    refine ⟨w :: ws, ?_, List.Forall₂.cons hw hfa⟩
    rw [encodeList, hw, hws]

theorem encodeProps_ok_of {plist : List (String × SchemaItem)} {fields : List (String × Value)}
    (h : ∀ p ∈ plist, ∃ w, encodeItem p.2 ((getField fields p.1).getD .null) = .ok w) :
    ∃ ws, encodeProps plist fields = .ok ws ∧
      List.Forall₂ (fun (p : String × SchemaItem) w =>
        encodeItem p.2 ((getField fields p.1).getD .null) = .ok w) plist ws := by
  induction plist with
  | nil => exact ⟨[], by simp [encodeProps], List.Forall₂.nil⟩
  | cons p rest ih =>
    cases p with
    | mk k cs =>
      rcases h (k, cs) (List.mem_cons_self _ _) with ⟨w, hw⟩
      rcases ih (fun q hq => h q (List.mem_cons_of_mem _ hq)) with ⟨ws, hws, hfa⟩
      refine ⟨w :: ws, ?_, List.Forall₂.cons hw hfa⟩
      rw [encodeProps, hw, hws]

/-- If the child encoder of some listed property throws on the property's
value, the per-property encoding loop propagates a throw. -/
theorem encodeProps_error_of {plist : List (String × SchemaItem)}
    {fields : List (String × Value)}
    (h : ∃ p ∈ plist, ∀ w, encodeItem p.2 ((getField fields p.1).getD .null) ≠ .ok w) :
    ∃ e, encodeProps plist fields = .error e := by
  induction plist with
  | nil => simp at h
  | cons p rest ih =>
    cases p with
    | mk k cs =>
      rcases henc : encodeItem cs ((getField fields k).getD .null) with e | w
      · exact ⟨e, by rw [encodeProps, henc]⟩
      · rcases h with ⟨q, hq, hfail⟩
        rcases List.mem_cons.mp hq with hq1 | hq2
        · subst hq1
          exact absurd henc (hfail w)
        · rcases ih ⟨q, hq2, hfail⟩ with ⟨e, he⟩
          exact ⟨e, by rw [encodeProps, henc, he]⟩

theorem decodeList_ok_of {items : SchemaItem} {ws : List Value} {c : Value → Value}
    {xs : List Value}
    (h : List.Forall₂ (fun x w => decodeItem items w = .ok (c x)) xs ws) :
    decodeList items ws = .ok (xs.map c) := by
  induction h with
  | nil => simp [decodeList]
  | cons hx hrest ih =>
    rw [List.map_cons, decodeList, hx, ih]

theorem decodeProps_ok_of {plist : List (String × SchemaItem)} {ws : List Value}
    {c : String × SchemaItem → Value}
    (h : List.Forall₂ (fun (p : String × SchemaItem) w => decodeItem p.2 w = .ok (c p)) plist ws) :
    decodeProps plist ws = .ok (plist.map (fun p => (p.1, c p))) := by
  induction h with
  | nil => simp [decodeProps]
  | cons hx hrest ih =>
    rename_i p w plist2 ws2
    cases p with
    | mk k cs =>
      rw [List.map_cons, decodeProps]
      simp only [List.headD_cons, List.tailD_cons]
      rw [hx, ih]

theorem canonList_eq_map (items : SchemaItem) (xs : List Value) :
    canonList items xs = xs.map (canonItem items) := by
  induction xs with
  | nil => simp [canonList]
  | cons x rest ih => rw [canonList, List.map_cons, ih]

theorem canonProps_eq_map (plist : List (String × SchemaItem)) (fields : List (String × Value)) :
    canonProps plist fields =
      plist.map (fun p => (p.1, canonItem p.2 ((getField fields p.1).getD .null))) := by
  induction plist with
  | nil => simp [canonProps]
  | cons p rest ih =>
    cases p with
    | mk k cs => rw [canonProps, List.map_cons, ih]

theorem bigintsNonNegList_iff {items : SchemaItem} {xs : List Value} :
    bigintsNonNegList items xs = true ↔ ∀ x ∈ xs, bigintsNonNeg items x = true := by
  induction xs with
  | nil => simp [bigintsNonNegList]
  | cons x rest ih =>
    rw [bigintsNonNegList]
    simp only [Bool.and_eq_true, ih]
    constructor
    · rintro ⟨h1, h2⟩ y hy
      rcases List.mem_cons.mp hy with hy1 | hy1
      · exact hy1 ▸ h1
      · exact h2 y hy1
    · intro hall
      exact ⟨hall x (List.mem_cons_self x rest),
        fun y hy => hall y (List.mem_cons_of_mem x hy)⟩

theorem bigintsNonNegProps_iff {props : List (String × SchemaItem)}
    {fields : List (String × Value)} :
    bigintsNonNegProps props fields = true ↔
      ∀ p ∈ props, bigintsNonNeg p.2 ((getField fields p.1).getD .null) = true := by
  induction props with
  | nil => simp [bigintsNonNegProps]
  | cons p rest ih =>
    cases p with
    | mk k cs =>
      rw [bigintsNonNegProps]
      simp only [Bool.and_eq_true, ih]
      constructor
      · rintro ⟨h1, h2⟩ q hq
        rcases List.mem_cons.mp hq with hq1 | hq1
        · subst hq1; exact h1
        · exact h2 q hq1
      · intro hall
        exact ⟨hall (k, cs) (List.mem_cons_self _ _),
          fun q hq => hall q (List.mem_cons_of_mem _ hq)⟩

theorem forall₂_strengthen {α β : Type} {R S : α → β → Prop} {xs : List α} {ys : List β}
    (h : List.Forall₂ R xs ys) (himp : ∀ x ∈ xs, ∀ y, R x y → S x y) :
    List.Forall₂ S xs ys := by
  induction h with
  | nil => exact List.Forall₂.nil
  | cons hx hrest ih =>
    rename_i x y xs2 ys2
    exact List.Forall₂.cons (himp x (List.mem_cons_self _ _) y hx)
      (ih (fun a ha b => himp a (List.mem_cons_of_mem _ ha) b))

/-! Typeof inversion helpers. -/

theorem jsTypeof_boolean {v : Value} (h : v.jsTypeof = "boolean") : ∃ b, v = .bool b := by
  cases v <;> simp [Value.jsTypeof] at h <;> exact ⟨_, rfl⟩

theorem jsTypeof_number {v : Value} (h : v.jsTypeof = "number") : ∃ q, v = .num q := by
  cases v <;> simp [Value.jsTypeof] at h <;> exact ⟨_, rfl⟩

theorem jsTypeof_string {v : Value} (h : v.jsTypeof = "string") : ∃ s, v = .str s := by
  cases v <;> simp [Value.jsTypeof] at h <;> exact ⟨_, rfl⟩

theorem jsTypeof_bigint {v : Value} (h : v.jsTypeof = "bigint") : ∃ n, v = .bigint n := by
  cases v <;> simp [Value.jsTypeof] at h <;> exact ⟨_, rfl⟩

/-- A schema-valid payload never makes the encoder throw. -/
theorem encodeItem_ok_of_valid :
    ∀ n (s : SchemaItem) (v : Value), sizeOf s ≤ n →
      validateItem s v = .success → ∃ w, encodeItem s v = .ok w := by
  intro n
  induction n using Nat.strong_induction_on with
  | _ n ih =>
    intro s v hsz h
    cases s with
    | prim k nb =>
      rw [validateItem] at h
      rcases checkPrimitive_success_iff.mp h with ⟨hv, _⟩ | ⟨hv, ht⟩
      · subst hv
        cases k <;> simp [encodeItem]
      · cases k
        · rcases jsTypeof_number ht with ⟨q, hq⟩
          subst hq
          simp [encodeItem]
        · rcases jsTypeof_string ht with ⟨s2, hs⟩
          subst hs
          simp [encodeItem]
        · rcases jsTypeof_boolean ht with ⟨b, hb⟩
          subst hb
          simp [encodeItem]
        · rcases jsTypeof_bigint ht with ⟨m, hm⟩
          subst hm
          simp [encodeItem]
    | array nb items =>
      rcases validateItem_array_success h with hv | ⟨xs, hv, hall⟩
      · subst hv
        exact ⟨.null, by simp [encodeItem]⟩
      · subst hv
        have hlt : sizeOf items < n := by
          simp at hsz
          omega
        have hpt : ∀ x ∈ xs, ∃ w, encodeItem items x = .ok w := fun x hx =>
          ih (sizeOf items) hlt items x (le_refl _) (hall x hx)
        rcases encodeList_ok_of hpt with ⟨ws, hws, _⟩
        exact ⟨.arr ws, by rw [encodeItem, hws]⟩
    | object nb props =>
      rcases validateItem_object_success h with hv | ⟨fields, hv, hk, hall⟩
      · subst hv
        exact ⟨.null, by simp [encodeItem]⟩
      · subst hv
        have hpt : ∀ p ∈ sortPairs props, ∃ w,
            encodeItem p.2 ((getField fields p.1).getD .null) = .ok w := by
          intro p hp
          have hp2 : p ∈ props := mem_sortPairs.mp hp
          have hlt : sizeOf p.2 < n := by
            have h1 := sizeOf_lt_of_mem_pairs hp2
            simp at hsz
            omega
          exact ih (sizeOf p.2) hlt p.2 _ (le_refl _) (hall p hp2)
        rcases encodeProps_ok_of hpt with ⟨ws, hws, _⟩
        exact ⟨.arr ws, by rw [encodeItem, hws]⟩
    | union nb opts =>
      rcases validateItem_union_success h with hv | ⟨fields, t, cs, hv, hty, hfind, hvalid⟩
      · subst hv
        exact ⟨.null, by simp [encodeItem, encodersUnion]⟩
      · subst hv
        rcases findIdxOption_of_findOption hfind with ⟨i, hidx⟩
        have hlt : sizeOf cs < n := by
          have h1 := findOption_sizeOf hfind
          simp at hsz
          omega
        rcases ih (sizeOf cs) hlt cs _ (le_refl _) hvalid with ⟨w, hw⟩
        refine ⟨.arr [.num (i : ℚ), w], ?_⟩
        rw [encodeItem, encodersUnion, hty]
        split
        · rename_i h2 t2 heq
          injection heq with h3
          subst h3
          split
          · rename_i j cs2 heq2
            rw [hidx] at heq2
            injection heq2 with heq3
            have hj : i = j := congrArg Prod.fst heq3
            have hcs2 : cs = cs2 := congrArg Prod.snd heq3
            subst hj
            rw [← hcs2, hw]
          · rename_i hnone
            rw [hidx] at hnone
            cases hnone
        · rename_i h2 hno
          exact absurd rfl (hno t)
    | enum nb vals =>
      rcases validateItem_enum_success h with hv | ⟨hne, hany⟩
      · subst hv
        exact ⟨.num 0, by simp [encodeItem, encodersEnum]⟩
      · rcases any_findIdx?_isSome hany with ⟨i, hi⟩
        refine ⟨.num ((i : ℚ) + 1), ?_⟩
        cases v <;> (try (exact absurd rfl hne)) <;> simp [encodeItem, encodersEnum, hi]

/-! Wire-number evaluation helpers for the decoder. -/

theorem jsListAt_natCast {α : Type} (xs : List α) (n : ℕ) :
    jsListAt xs ((n : ℕ) : ℚ) = xs[n]? := by
  rw [jsListAt]
  have ht : jsTrunc ((n : ℕ) : ℚ) = (n : ℤ) := by
    rw [show ((n : ℕ) : ℚ) = (((n : ℤ)) : ℚ) by push_cast; ring]
    exact jsTrunc_intCast _
  simp only [ht]
  rw [if_neg (by omega)]
  rw [if_neg (by omega)]
  simp

theorem decodeItem_boolean_nat (nb : Bool) (n : ℕ) :
    decodeItem (.prim .boolean nb) (.num ((n : ℕ) : ℚ)) =
      .ok (([Value.bool false, Value.bool true, Value.null][n]?).getD poison) := by
  rw [decodeItem, jsListAt_natCast]
  rcases h : [Value.bool false, Value.bool true, Value.null][n]? with _ | r <;> simp

theorem decodeItem_enum_nat {nb : Bool} {vals : List Prim} (i : ℕ) {p : Prim}
    (hp : vals[i]? = some p) :
    decodeItem (.enum nb vals) (.num ((i : ℚ) + 1)) = .ok p.toValue := by
  have hq : ((i : ℚ) + 1) = (((i + 1 : ℕ)) : ℚ) := by push_cast; ring
  rw [decodeItem, hq]
  rw [if_neg (by rw [Rat.den_natCast]; omega)]
  rw [if_neg (by
    intro hc
    have h3 : (i + 1 : ℕ) = 0 := by exact_mod_cast hc
    omega)]
  have hnum : (((i + 1 : ℕ) : ℚ)).num = ((i + 1 : ℕ) : ℤ) := Rat.num_natCast _
  rw [hnum]
  rw [if_neg (by push_cast; omega)]
  have hidx : (((i + 1 : ℕ) : ℤ) - 1).toNat = i := by push_cast; omega
  rw [hidx, hp]

theorem decodersUnion_wire {opts : List (String × SchemaItem)} (i : ℕ) {t : String}
    {cs : SchemaItem} (hidx : findIdxOption opts t = some (i, cs)) {d w : Value}
    (hd : decodeItem cs d = .ok w) :
    decodersUnion opts (.arr [.num ((i : ℕ) : ℚ), d]) =
      .ok (.obj [("type", .str t), ("data", w)]) := by
  rw [decodersUnion]
  rw [if_neg (by rw [Rat.den_natCast]; omega)]
  rw [if_neg (by rw [Rat.num_natCast]; omega)]
  have htn : (((i : ℕ) : ℚ)).num.toNat = i := by
    rw [Rat.num_natCast]
    exact Int.toNat_natCast i
  split
  · rename_i hnone
    rw [htn, findIdxOption_getElem hidx] at hnone
    cases hnone
  · rename_i k2 cs2 heq
    rw [htn, findIdxOption_getElem hidx] at heq
    injection heq with heq2
    have hk : t = k2 := congrArg Prod.fst heq2
    have hcs : cs = cs2 := congrArg Prod.snd heq2
    subst hk
    rw [← hcs, hd]

theorem decodeItem_boolean_two (nb : Bool) :
    decodeItem (.prim .boolean nb) (.num 2) = .ok Value.null := by
  rw [show (2 : ℚ) = ((2 : ℕ) : ℚ) by norm_num, decodeItem_boolean_nat]
  rfl

theorem decodeItem_boolean_one (nb : Bool) :
    decodeItem (.prim .boolean nb) (.num 1) = .ok (Value.bool true) := by
  rw [show (1 : ℚ) = ((1 : ℕ) : ℚ) by norm_num, decodeItem_boolean_nat]
  rfl

theorem decodeItem_boolean_zero (nb : Bool) :
    decodeItem (.prim .boolean nb) (.num 0) = .ok (Value.bool false) := by
  rw [show (0 : ℚ) = ((0 : ℕ) : ℚ) by norm_num, decodeItem_boolean_nat]
  rfl

/-- Round-trip: on a schema-valid payload whose bigints are all non-negative,
decoding the encoded wire value rebuilds exactly the canonicalized payload. -/
theorem roundtrip_item :
    ∀ n (s : SchemaItem) (v : Value), sizeOf s ≤ n →
      validateItem s v = .success → bigintsNonNeg s v = true →
      ∃ w, encodeItem s v = .ok w ∧ decodeItem s w = .ok (canonItem s v) := by
  intro n
  induction n using Nat.strong_induction_on with
  | _ n ih =>
    intro s v hsz h hnn
    cases s with
    | prim k nb =>
      rw [validateItem] at h
      rcases checkPrimitive_success_iff.mp h with ⟨hv, _⟩ | ⟨hv, ht⟩
      · subst hv
        cases k
        · exact ⟨.null, by simp [encodeItem], by simp [decodeItem, canonItem]⟩
        · exact ⟨.null, by simp [encodeItem], by simp [decodeItem, canonItem]⟩
        · exact ⟨.num 2, by simp [encodeItem], by rw [decodeItem_boolean_two, canonItem]⟩
        · exact ⟨.null, by simp [encodeItem], by simp [decodeItem, canonItem]⟩
      · cases k
        · rcases jsTypeof_number ht with ⟨q, hq⟩
          subst hq
          exact ⟨.num q, by simp [encodeItem], by simp [decodeItem, canonItem]⟩
        · rcases jsTypeof_string ht with ⟨s2, hs⟩
          subst hs
          exact ⟨.str s2, by simp [encodeItem], by simp [decodeItem, canonItem]⟩
        · rcases jsTypeof_boolean ht with ⟨b, hb⟩
          subst hb
          cases b
          · exact ⟨.num 0, by simp [encodeItem],
              by rw [decodeItem_boolean_zero, canonItem]⟩
          · exact ⟨.num 1, by simp [encodeItem],
              by rw [decodeItem_boolean_one, canonItem]⟩
        · rcases jsTypeof_bigint ht with ⟨m, hm⟩
          subst hm
          rw [bigintsNonNeg] at hnn
          have hm0 : 0 ≤ m := by simpa using hnn
          refine ⟨.str (bigintToHex m), by simp [encodeItem], ?_⟩
          rw [decodeItem, hexParse_bigintToHex hm0, canonItem]
          simp [Int.toNat_of_nonneg hm0]
    | array nb items =>
      rcases validateItem_array_success h with hv | ⟨xs, hv, hall⟩
      · subst hv
        exact ⟨.null, by simp [encodeItem], by simp [decodeItem, canonItem]⟩
      · subst hv
        have hlt : sizeOf items < n := by
          simp at hsz
          omega
        rw [bigintsNonNeg] at hnn
        rw [bigintsNonNegList_iff] at hnn
        have hpt : ∀ x ∈ xs, ∃ w, encodeItem items x = .ok w ∧
            decodeItem items w = .ok (canonItem items x) := fun x hx =>
          ih (sizeOf items) hlt items x (le_refl _) (hall x hx) (hnn x hx)
        have hpt2 : ∀ x ∈ xs, ∃ w, encodeItem items x = .ok w := by
          intro x hx
          rcases hpt x hx with ⟨w, hw, _⟩
          exact ⟨w, hw⟩
        rcases encodeList_ok_of hpt2 with ⟨ws, hws, hfa⟩
        have hfa2 : List.Forall₂ (fun x w => decodeItem items w = .ok (canonItem items x)) xs ws := by
          refine forall₂_strengthen hfa ?_
          intro x hx w hw
          rcases hpt x hx with ⟨w2, hw2, hd2⟩
          rw [hw] at hw2
          injection hw2 with hw3
          rw [← hw3] at hd2
          exact hd2
        refine ⟨.arr ws, by rw [encodeItem, hws], ?_⟩
        rw [decodeItem, decodeList_ok_of hfa2, canonItem, canonList_eq_map]
    | object nb props =>
      rcases validateItem_object_success h with hv | ⟨fields, hv, hk, hall⟩
      · subst hv
        exact ⟨.null, by simp [encodeItem], by simp [decodeItem, canonItem]⟩
      · subst hv
        rw [bigintsNonNeg] at hnn
        rw [bigintsNonNegProps_iff] at hnn
        have hpt : ∀ p ∈ sortPairs props, ∃ w,
            encodeItem p.2 ((getField fields p.1).getD .null) = .ok w ∧
            decodeItem p.2 w = .ok (canonItem p.2 ((getField fields p.1).getD .null)) := by
          intro p hp
          have hp2 : p ∈ props := mem_sortPairs.mp hp
          have hlt : sizeOf p.2 < n := by
            have h1 := sizeOf_lt_of_mem_pairs hp2
            simp at hsz
            omega
          exact ih (sizeOf p.2) hlt p.2 _ (le_refl _) (hall p hp2) (hnn p hp2)
        have hpt2 : ∀ p ∈ sortPairs props, ∃ w,
            encodeItem p.2 ((getField fields p.1).getD .null) = .ok w := by
          intro p hp
          rcases hpt p hp with ⟨w, hw, _⟩
          exact ⟨w, hw⟩
        rcases encodeProps_ok_of hpt2 with ⟨ws, hws, hfa⟩
        have hfa2 : List.Forall₂ (fun (p : String × SchemaItem) w => decodeItem p.2 w =
            .ok (canonItem p.2 ((getField fields p.1).getD .null))) (sortPairs props) ws := by
          refine forall₂_strengthen hfa ?_
          intro p hp w hw
          rcases hpt p hp with ⟨w2, hw2, hd2⟩
          rw [hw] at hw2
          injection hw2 with hw3
          rw [← hw3] at hd2
          exact hd2
        have hlen : ws.length = (sortPairs props).length := hfa2.length_eq.symm
        refine ⟨.arr ws, by rw [encodeItem, hws], ?_⟩
        rw [decodeItem, if_pos hlen,
          decodeProps_ok_of (c := fun p => canonItem p.2 ((getField fields p.1).getD .null)) hfa2,
          canonItem, canonProps_eq_map]
    | union nb opts =>
      rcases validateItem_union_success h with hv | ⟨fields, t, cs, hv, hty, hfind, hvalid⟩
      · subst hv
        exact ⟨.null, by simp [encodeItem, encodersUnion],
          by simp [decodeItem, decodersUnion, canonItem]⟩
      · subst hv
        rcases findIdxOption_of_findOption hfind with ⟨i, hidx⟩
        have hlt : sizeOf cs < n := by
          have h1 := findOption_sizeOf hfind
          simp at hsz
          omega
        have hnn2 : bigintsNonNeg cs ((getField fields "data").getD .null) = true := by
          rw [bigintsNonNeg, hty] at hnn
          split at hnn
          · rename_i h2 t2 heq
            injection heq with h3
            subst h3
            split at hnn
            · rename_i cs2 heq2
              rw [hfind] at heq2
              injection heq2 with heq3
              rw [heq3]
              exact hnn
            · rename_i hnone
              rw [hfind] at hnone
              cases hnone
          · rename_i h2 hno
            exact absurd rfl (hno t)
        rcases ih (sizeOf cs) hlt cs _ (le_refl _) hvalid hnn2 with ⟨w, hw, hd⟩
        refine ⟨.arr [.num (i : ℚ), w], ?_, ?_⟩
        · rw [encodeItem, encodersUnion, hty]
          split
          · rename_i h2 t2 heq
            injection heq with h3
            subst h3
            split
            · rename_i j cs2 heq2
              rw [hidx] at heq2
              injection heq2 with heq3
              have hj : i = j := congrArg Prod.fst heq3
              have hcs2 : cs = cs2 := congrArg Prod.snd heq3
              subst hj
              rw [← hcs2, hw]
            · rename_i hnone
              rw [hidx] at hnone
              cases hnone
          · rename_i h2 hno
            exact absurd rfl (hno t)
        · rw [decodeItem, decodersUnion_wire i hidx hd, canonItem, hty]
          split
          · rename_i h2 t2 heq
            injection heq with h3
            subst h3
            split
            · rename_i cs2 heq2
              rw [hfind] at heq2
              injection heq2 with heq3
              rw [heq3]
            · rename_i hnone
              rw [hfind] at hnone
              cases hnone
          · rename_i h2 hno
            exact absurd rfl (hno t)
    | enum nb vals =>
      rcases validateItem_enum_success h with hv | ⟨hne, hany⟩
      · subst hv
        refine ⟨.num 0, by simp [encodeItem, encodersEnum], ?_⟩
        rw [decodeItem]
        rw [if_neg (by norm_num)]
        rw [if_pos rfl, canonItem]
      · rcases any_findIdx?_isSome hany with ⟨i, hi⟩
        rcases findIdx?_elem hi with ⟨p, hp, hpe⟩
        have henc : encodeItem (.enum nb vals) v = .ok (.num ((i : ℚ) + 1)) := by
          cases v <;> (try (exact absurd rfl hne)) <;> simp [encodeItem, encodersEnum, hi]
        refine ⟨.num ((i : ℚ) + 1), henc, ?_⟩
        rw [decodeItem_enum_nat i hp, canonItem, Prim.jsEqual_iff.mp hpe]

/-! Decoder totality: no input can make the compiled decoder raise. -/

theorem decodeList_total {items : SchemaItem} {xs : List Value}
    (h : ∀ x ∈ xs, ∃ w, decodeItem items x = .ok w) :
    ∃ ws, decodeList items xs = .ok ws := by
  induction xs with
  | nil => exact ⟨[], by simp [decodeList]⟩
  | cons x rest ih =>
    rcases h x (List.mem_cons_self x rest) with ⟨w, hw⟩
    rcases ih (fun y hy => h y (List.mem_cons_of_mem x hy)) with ⟨ws, hws⟩
    exact ⟨w :: ws, by rw [decodeList, hw, hws]⟩

theorem decodeProps_total {plist : List (String × SchemaItem)}
    (h : ∀ p ∈ plist, ∀ y : Value, ∃ w, decodeItem p.2 y = .ok w) :
    ∀ xs : List Value, ∃ fs, decodeProps plist xs = .ok fs := by
  induction plist with
  | nil => exact fun xs => ⟨[], by simp [decodeProps]⟩
  | cons p rest ih =>
    intro xs
    cases p with
    | mk k cs =>
      rcases h (k, cs) (List.mem_cons_self _ _) (xs.headD .null) with ⟨w, hw⟩
      rcases ih (fun q hq y => h q (List.mem_cons_of_mem _ hq) y) (xs.tailD []) with ⟨fs, hfs⟩
      exact ⟨(k, w) :: fs, by rw [decodeProps, hw, hfs]⟩

theorem decodeItem_total :
    ∀ n (s : SchemaItem) (v : Value), sizeOf s ≤ n → ∃ w, decodeItem s v = .ok w := by
  intro n
  induction n using Nat.strong_induction_on with
  | _ n ih =>
    intro s v hsz
    cases s with
    | prim k nb =>
      cases k <;> cases v <;> simp [decodeItem] <;>
        (try (rcases hexParse _ with _ | m <;> simp)) <;>
        (try exact ⟨_, rfl⟩)
    | array nb items =>
      cases v
      case arr xs =>
        have hlt : sizeOf items < n := by
          simp at hsz
          omega
        have hpt : ∀ x ∈ xs, ∃ w, decodeItem items x = .ok w := fun x _ =>
          ih (sizeOf items) hlt items x (le_refl _)
        rcases decodeList_total hpt with ⟨ws, hws⟩
        exact ⟨.arr ws, by rw [decodeItem, hws]⟩
      all_goals simp [decodeItem]
    | object nb props =>
      cases v
      case arr xs =>
        by_cases hlen : xs.length = (sortPairs props).length
        · have hpt : ∀ p ∈ sortPairs props, ∀ y : Value, ∃ w, decodeItem p.2 y = .ok w := by
            intro p hp y
            have hp2 : p ∈ props := mem_sortPairs.mp hp
            have hlt : sizeOf p.2 < n := by
              have h1 := sizeOf_lt_of_mem_pairs hp2
              simp at hsz
              omega
            exact ih (sizeOf p.2) hlt p.2 y (le_refl _)
          rcases decodeProps_total hpt xs with ⟨fs, hfs⟩
          exact ⟨.obj fs, by rw [decodeItem, if_pos hlen, hfs]⟩
        · exact ⟨poison, by rw [decodeItem, if_neg hlen]⟩
      all_goals simp [decodeItem]
    | union nb opts =>
      rw [decodeItem]
      cases v
      case arr xs =>
        match xs with
        | [] => simp [decodersUnion]
        | [x] => simp [decodersUnion]
        | x :: y :: z :: rest => simp [decodersUnion]
        | [x, d] =>
          cases x
          case num q =>
            simp only [decodersUnion]
            by_cases hden : q.den ≠ 1
            · rw [if_pos hden]
              exact ⟨poison, rfl⟩
            · rw [if_neg hden]
              by_cases hneg : q.num < 0
              · rw [if_pos hneg]
                exact ⟨poison, rfl⟩
              · rw [if_neg hneg]
                split
                · exact ⟨poison, rfl⟩
                · rename_i k cs heq
                  have hmem : (k, cs) ∈ opts := by
                    rcases List.getElem?_eq_some_iff.mp heq with ⟨hlt2, hget⟩
                    exact hget ▸ List.getElem_mem hlt2
                  have hlt : sizeOf cs < n := by
                    have h1 := sizeOf_lt_of_mem_pairs hmem
                    simp at hsz h1
                    omega
                  rcases ih (sizeOf cs) hlt cs d (le_refl _) with ⟨w, hw⟩
                  exact ⟨.obj [("type", .str k), ("data", w)], by rw [hw]⟩
          all_goals simp [decodersUnion]
      all_goals simp [decodersUnion]
    | enum nb vals =>
      cases v
      case num q =>
        rw [decodeItem]
        by_cases hden : q.den ≠ 1
        · rw [if_pos hden]
          exact ⟨poison, rfl⟩
        · rw [if_neg hden]
          by_cases h0 : q = 0
          · rw [if_pos h0]
            exact ⟨.null, rfl⟩
          · rw [if_neg h0]
            by_cases hneg : q.num - 1 < 0
            · rw [if_pos hneg]
              exact ⟨poison, rfl⟩
            · rw [if_neg hneg]
              rcases hg : vals[(q.num - 1).toNat]? with _ | p <;> simp [hg] <;> exact ⟨_, rfl⟩
      all_goals simp [decodeItem]

/-- Totality at the compiled top level. -/
theorem getSchemaDecoder_total (schema : CallbackSchema) (v : Value) :
    ∃ w, getSchemaDecoder schema v = .ok w :=
  decodeItem_total _ _ v (le_refl _)

/-- No schema node accepts the poison marker itself. -/
theorem validateItem_sym_failure (s : SchemaItem) :
    ∃ es, validateItem s Value.sym = .failure es := by
  cases s with
  | prim k nb =>
    refine ⟨[⟨[], "Expected " ++ k.jsName, .sym⟩], ?_⟩
    rw [validateItem]
    cases k <;> simp [checkPrimitive, checkNullability, Value.isNull, Value.jsTypeof,
      PrimKind.jsName]
  | array nb items =>
    exact ⟨[⟨[], "Expected array", .sym⟩],
      by simp [validateItem, checkNullability, Value.isNull]⟩
  | object nb props =>
    exact ⟨[⟨[], "Expected object", .sym⟩],
      by simp [validateItem, checkNullability, Value.isNull]⟩
  | union nb opts =>
    exact ⟨[⟨[], "Expected object", .sym⟩],
      by simp [validateItem, checkNullability, Value.isNull]⟩
  | enum nb vals =>
    refine ⟨[⟨[], "Expected one of " ++ String.intercalate ", " (vals.map Prim.jsString),
      .sym⟩], ?_⟩
    have hany : (vals.any fun p => p.jsEqual Value.sym) = false := by
      rw [List.any_eq_false]
      intro p _
      cases p <;> simp [Prim.jsEqual]
    simp [validateItem, checkNullability, Value.isNull, hany]

/-- A failing child validation at a descended position makes the parent fail. -/
theorem validateItem_descends_failure {p1 p2 : SchemaItem × Value}
    (hstep : DescendsStep p1 p2) {es2 : List SchemaValidationError}
    (h2 : validateItem p2.1 p2.2 = .failure es2) :
    ∃ es, validateItem p1.1 p1.2 = .failure es := by
  cases hstep with
  | arrayElem hx =>
    rename_i nb items xs x
    have hne : validateElems items xs 0 ≠ [] := by
      intro hc
      have := (validateElems_eq_nil_iff.mp hc) x hx
      rw [h2] at this
      cases this
    refine ⟨validateElems items xs 0, ?_⟩
    rw [validateItem]
    simp [checkNullability, Value.isNull, hne]
  | objectProp hall hmem hget =>
    rename_i nb props fields k cs w
    have hne : validateProps props fields ≠ [] := by
      intro hc
      have := (validateProps_eq_nil_iff.mp hc) (k, cs) hmem
      rw [hget] at this
      simp at this
      rw [h2] at this
      cases this
    refine ⟨validateProps props fields, ?_⟩
    rw [validateItem]
    simp [checkNullability, Value.isNull, hall, hne]
  | unionData hktype hkdata hty hfind =>
    rename_i nb opts fields t cs
    refine ⟨es2, ?_⟩
    rw [validateItem]
    simp only [checkNullability, Value.isNull, Bool.and_false, Bool.false_eq_true, if_false]
    rw [hktype, hkdata]
    simp only [Bool.and_self, Bool.not_true, Bool.false_eq_true, if_false]
    rw [hty]
    split
    · rename_i h3 t2 heq
      injection heq with h4
      subst h4
      split
      · rename_i cs2 heq2
        rw [hfind] at heq2
        injection heq2 with heq3
        rw [← heq3]
        exact h2
      · rename_i hnone
        rw [hfind] at hnone
        cases hnone
    · rename_i h3 hno
      exact absurd rfl (hno t)

/-! Sorting is canonical: permuting a unique-key property record does not
change its sorted form. -/

theorem sortPairs_eq_of_perm {α : Type} {l1 l2 : List (String × α)}
    (hperm : l2.Perm l1) (hnd : (l1.map Prod.fst).Nodup) :
    sortPairs l2 = sortPairs l1 := by
  have hp : (sortPairs l2).Perm (sortPairs l1) :=
    ((sortPairs_perm l2).trans hperm).trans (sortPairs_perm l1).symm
  refine List.Perm.eq_of_sorted ?_ (sortPairs_pairwise l2) (sortPairs_pairwise l1) hp
  intro a b ha hb hab hba
  have ha2 : a ∈ l1 := hperm.mem_iff.mp (mem_sortPairs.mp ha)
  have hb2 : b ∈ l1 := mem_sortPairs.mp hb
  have hk : a.1 = b.1 := le_antisymm hab hba
  exact List.inj_on_of_nodup_map hnd ha2 hb2 hk

/-- Forward characterization of a successful `encodeProps`. -/
theorem encodeProps_forall₂ {plist : List (String × SchemaItem)}
    {fields : List (String × Value)} :
    ∀ {ws : List Value}, encodeProps plist fields = .ok ws →
      List.Forall₂ (fun (p : String × SchemaItem) w =>
        encodeItem p.2 ((getField fields p.1).getD .null) = .ok w) plist ws := by
  induction plist with
  | nil =>
    intro ws h
    simp [encodeProps] at h
    rw [h]
    exact List.Forall₂.nil
  | cons p rest ih =>
    intro ws h
    cases p with
    | mk k cs =>
      rw [encodeProps] at h
      rcases he : encodeItem cs ((getField fields k).getD .null) with e | w
      · rw [he] at h
        cases h
      · rw [he] at h
        rcases hr : encodeProps rest fields with e | ws2
        · rw [hr] at h
          cases h
        · rw [hr] at h
          injection h with h2
          rw [← h2]
          exact List.Forall₂.cons he (ih hr)

/-- A wire sequence of matching length decodes property-wise against the
sorted property list (the decoder cannot fail: C4). -/
theorem decodeProps_forall₂ (plist : List (String × SchemaItem)) (xs : List Value)
    (hlen : xs.length = plist.length) :
    ∃ fs, decodeProps plist xs = .ok fs ∧
      List.Forall₂ (fun (px : (String × SchemaItem) × Value) (f : String × Value) =>
        f.1 = px.1.1 ∧ decodeItem px.1.2 px.2 = .ok f.2) (plist.zip xs) fs := by
  induction plist generalizing xs with
  | nil =>
    exact ⟨[], by simp [decodeProps], by simp [List.zip]⟩
  | cons p rest ih =>
    cases p with
    | mk k cs =>
      cases xs with
      | nil => simp at hlen
      | cons x xrest =>
        rcases decodeItem_total (sizeOf cs) cs x (le_refl _) with ⟨w, hw⟩
        rcases ih xrest (by simpa using hlen) with ⟨fs, hfs, hfa⟩
        refine ⟨(k, w) :: fs, ?_, ?_⟩
        · rw [decodeProps]
          simp only [List.headD_cons, List.tailD_cons]
          rw [hw, hfs]
        · exact List.Forall₂.cons ⟨rfl, hw⟩ hfa

/-! Bridging the compiled top-level validator. -/

theorem getSchemaValidator_success_iff {schema : CallbackSchema} {v d : Value} :
    getSchemaValidator schema v = .success d ↔
      validateItem (.object false schema) v = .success ∧ d = v := by
  rw [getSchemaValidator]
  rcases h : validateItem (.object false schema) v with _ | es <;> simp [h, eq_comm]

theorem getSchemaValidator_failure_iff {schema : CallbackSchema} {v : Value}
    {es : List SchemaValidationError} :
    getSchemaValidator schema v = .failure es ↔
      validateItem (.object false schema) v = .failure es := by
  rw [getSchemaValidator]
  rcases h : validateItem (.object false schema) v with _ | es2 <;> simp [h]

/-! Claim theorems. -/

/-- C1 counterexample: the claim fails as stated.  The schema
`{v: "bigint"}` accepts the value `{v: -1n}` (the validator only checks
`typeof`), the encoder renders it as the hex string `"-1"`, but
`BigInt("0x-1")` throws, so the decoder poisons the field: the decoded value
is `{v: Poison}`, not structurally equal to the canonicalized input
`{v: -1n}`. -/
theorem C1_roundtrip_counterexample :
    getSchemaValidator [("v", .prim .bigint false)] (.obj [("v", .bigint (-1))]) =
      .success (.obj [("v", .bigint (-1))]) ∧
    getSchemaEncoder [("v", .prim .bigint false)] (.obj [("v", .bigint (-1))]) =
      .ok (.arr [.str "-1"]) ∧
    getSchemaDecoder [("v", .prim .bigint false)] (.arr [.str "-1"]) =
      .ok (.obj [("v", poison)]) ∧
    canonItem (.object false [("v", .prim .bigint false)]) (.obj [("v", .bigint (-1))]) =
      .obj [("v", .bigint (-1))] ∧
    Value.obj [("v", poison)] ≠ .obj [("v", .bigint (-1))] := by
  refine ⟨?_, ?_, ?_, ?_, ?_⟩
  · simp [getSchemaValidator, validateItem, validateProps, checkPrimitive, checkNullability,
      Value.isNull, Value.jsTypeof, PrimKind.jsName, hasField, getField, childErrors]
  · have hhex : bigintToHex (-1) = "-1" := by
      simp [bigintToHex, toHexString]
      rfl
    simp [getSchemaEncoder, encodeItem, encodeProps, sortPairs, orderedInsertKey, getField, hhex]
  · have hparse : hexParse "-1" = none := by decide
    simp [getSchemaDecoder, decodeItem, decodeProps, sortPairs, orderedInsertKey, hparse]
  · simp [canonItem, canonProps, sortPairs, orderedInsertKey, getField]
  · simp [poison]

/-- C1 (amended): for every schema and every value accepted by the compiled
validator in which every bigint reachable by the schema is non-negative,
decoding the encoded wire value yields exactly the canonicalized value
(nulls normalized per the per-kind rules, object keys in sorted order, extra
keys dropped).  The restriction to non-negative bigints is forced by the
counterexample above; §4.2 of the spec defines the hex encoding only for the
non-negative magnitude and §9 records negative bigints as unsupported. -/
theorem C1_roundtrip_amended (schema : CallbackSchema) (v : Value)
    (hv : getSchemaValidator schema v = .success v)
    (hnn : bigintsNonNeg (.object false schema) v = true) :
    ∃ w, getSchemaEncoder schema v = .ok w ∧
      getSchemaDecoder schema w = .ok (canonItem (.object false schema) v) := by
  have h2 := (getSchemaValidator_success_iff.mp hv).1
  exact roundtrip_item (sizeOf (SchemaItem.object false schema)) _ v (le_refl _) h2 hnn

/-- C1 witness: a concrete schema and value satisfying the amended claim. -/
theorem C1_roundtrip_amended_witness :
    getSchemaValidator [("v", .prim .number false)] (.obj [("v", .num 1)]) =
      .success (.obj [("v", .num 1)]) ∧
    bigintsNonNeg (.object false [("v", .prim .number false)]) (.obj [("v", .num 1)]) = true ∧
    ∃ w, getSchemaEncoder [("v", .prim .number false)] (.obj [("v", .num 1)]) = .ok w ∧
      getSchemaDecoder [("v", .prim .number false)] w =
        .ok (canonItem (.object false [("v", .prim .number false)]) (.obj [("v", .num 1)])) := by
  refine ⟨?_, ?_, ?_⟩
  · simp [getSchemaValidator, validateItem, validateProps, checkPrimitive, checkNullability,
      Value.isNull, Value.jsTypeof, PrimKind.jsName, hasField, getField, childErrors]
  · simp [bigintsNonNeg, bigintsNonNegProps, getField]
  · exact C1_roundtrip_amended [("v", .prim .number false)] (.obj [("v", .num 1)])
      (by simp [getSchemaValidator, validateItem, validateProps, checkPrimitive, checkNullability,
        Value.isNull, Value.jsTypeof, PrimKind.jsName, hasField, getField, childErrors])
      (by simp [bigintsNonNeg, bigintsNonNegProps, getField])

/-- C2: evaluation of the compiled boolean decoder at the claim's inputs.
The integers 0, 1 and 2 decode to false, true and null, a non-number input
and the out-of-range 3 decode to Poison — but the wire integer -1 decodes to
`null`, not Poison: `[false, true, null].at(-1)` wraps around to the last
element, the negative-index defect §4.3/§9 of the spec warns about. -/
theorem C2_boolean_decoder_wire_behavior :
    decodeItem (.prim .boolean false) (.num 0) = .ok (.bool false) ∧
    decodeItem (.prim .boolean false) (.num 1) = .ok (.bool true) ∧
    decodeItem (.prim .boolean false) (.num 2) = .ok .null ∧
    decodeItem (.prim .boolean false) (.str "x") = .ok poison ∧
    decodeItem (.prim .boolean false) (.num 3) = .ok poison ∧
    decodeItem (.prim .boolean false) (.num (-1)) = .ok Value.null ∧
    Value.null ≠ poison := by
  refine ⟨decodeItem_boolean_zero false, decodeItem_boolean_one false,
    decodeItem_boolean_two false, by simp [decodeItem], ?_, ?_, by simp [poison]⟩
  · rw [show (3 : ℚ) = ((3 : ℕ) : ℚ) by norm_num, decodeItem_boolean_nat]
    rfl
  · have ht : jsTrunc (-1 : ℚ) = -1 := by
      rw [show (-1 : ℚ) = ((-1 : ℤ) : ℚ) by norm_num]
      exact jsTrunc_intCast _
    rw [decodeItem]
    rw [jsListAt, ht]
    norm_num
    rfl

/-- C3: Poison never validates.  Applying the compiled validator to the
poison marker itself fails at every schema node, and whenever the poison
marker sits at a position the schema descends into (an array element, a
declared and present object property, or the data field of a declared union
variant — iterated to any depth), the validator for the enclosing value
returns a failure result. -/
theorem C3_poison_never_validates :
    (∀ s : SchemaItem, ∃ es, validateItem s poison = .failure es) ∧
    (∀ (s s2 : SchemaItem) (v : Value),
      Relation.ReflTransGen DescendsStep (s, v) (s2, poison) →
      ∃ es, validateItem s v = .failure es) := by
  constructor
  · exact validateItem_sym_failure
  · intro s s2 v hreach
    have hgen : ∀ p : SchemaItem × Value,
        Relation.ReflTransGen DescendsStep p (s2, poison) →
        ∃ es, validateItem p.1 p.2 = .failure es := by
      intro p hp
      refine Relation.ReflTransGen.head_induction_on hp ?_ ?_
      · exact validateItem_sym_failure s2
      · intro a c hac hcb ihc
        rcases ihc with ⟨es2, hes2⟩
        exact validateItem_descends_failure hac hes2
    exact hgen (s, v) hreach

/-- C3 witness: an array of numbers containing the poison marker fails to
validate. -/
theorem C3_poison_never_validates_witness :
    ∃ es, validateItem (.array false (.prim .number false)) (.arr [poison]) = .failure es :=
  C3_poison_never_validates.2 (.array false (.prim .number false)) (.prim .number false)
    (.arr [poison])
    (Relation.ReflTransGen.single (DescendsStep.arrayElem (List.mem_singleton.mpr rfl)))

/-- C4: decoder totality.  For every schema node and every input value the
compiled decoder returns normally (possibly with Poison embedded in the
result) and never lets an exception escape; likewise for the compiled
top-level decoder of a whole schema. -/
theorem C4_decoder_never_raises :
    (∀ (s : SchemaItem) (v : Value), ∃ w, decodeItem s v = .ok w) ∧
    (∀ (schema : CallbackSchema) (v : Value), ∃ w, getSchemaDecoder schema v = .ok w) :=
  ⟨fun s v => decodeItem_total (sizeOf s) s v (le_refl _), getSchemaDecoder_total⟩

/-- C5 counterexample: the claim fails as stated, in two ways.  On the
non-null non-mapping input `0` the compiled encoder for an object node throws
("Expected an object") instead of producing a per-property sequence; and even
on a mapping input the node can throw instead of producing the sequence, when
a child encoder throws — here an array-typed property holding the number `5`
("Expected an array"). -/
theorem C5_object_encoding_counterexample :
    encodeItem (.object false [("x", .prim .number false)]) (.num 0) =
      .error "Expected an object" ∧
    encodeItem (.object false [("a", .array false (.prim .number false))])
        (.obj [("a", .num 5)]) = .error "Expected an array" := by
  constructor
  · simp [encodeItem]
  · simp [encodeItem, encodeProps, sortPairs, orderedInsertKey, getField]

/-- C5 (amended): for every object schema node: a non-null non-mapping input
(a primitive or an array) throws "Expected an object"; on a mapping input,
whenever every declared property's child encoder succeeds on the
property's value (`payload[k] ?? null`, so a missing property is encoded
as if its value were null), the encoder produces a sequence with exactly one
entry per declared property, ordered lexicographically by property name and
independent of declaration order, each entry the corresponding child
encoding; and whenever some declared property's child encoder throws, the
object encoder propagates a throw instead of producing a sequence. -/
theorem C5_object_encoding_amended (nb : Bool) (props : List (String × SchemaItem))
    (fields : List (String × Value)) :
    (∀ v : Value, v ≠ .null → (v.isArray = true ∨ v.jsTypeof ≠ "object") →
      encodeItem (.object nb props) v = .error "Expected an object") ∧
    List.Pairwise (fun a b : String => a ≤ b) ((sortPairs props).map Prod.fst) ∧
    ((sortPairs props).map Prod.fst).Perm (props.map Prod.fst) ∧
    ((∀ p ∈ props, ∃ w, encodeItem p.2 ((getField fields p.1).getD .null) = .ok w) →
      ∃ ws, encodeItem (.object nb props) (.obj fields) = .ok (.arr ws) ∧
        ws.length = props.length ∧
        List.Forall₂ (fun (p : String × SchemaItem) w =>
          encodeItem p.2 ((getField fields p.1).getD .null) = .ok w) (sortPairs props) ws) ∧
    ((∃ p ∈ props, ∀ w, encodeItem p.2 ((getField fields p.1).getD .null) ≠ .ok w) →
      ∃ e, encodeItem (.object nb props) (.obj fields) = .error e) ∧
    (∀ props2 : List (String × SchemaItem), props2.Perm props → (props.map Prod.fst).Nodup →
      encodeItem (.object nb props2) (.obj fields) =
        encodeItem (.object nb props) (.obj fields)) := by
  refine ⟨?_, ?_, ?_, ?_, ?_, ?_⟩
  · intro v hnull hshape
    cases v <;> simp [Value.isArray, Value.jsTypeof] at hshape <;>
      simp [encodeItem] <;> simp at hnull
  · exact (List.pairwise_map).mpr (sortPairs_pairwise props)
  · exact (sortPairs_perm props).map Prod.fst
  · intro h
    have h2 : ∀ p ∈ sortPairs props,
        ∃ w, encodeItem p.2 ((getField fields p.1).getD .null) = .ok w :=
      fun p hp => h p (mem_sortPairs.mp hp)
    rcases encodeProps_ok_of h2 with ⟨ws, hws, hfa⟩
    refine ⟨ws, by rw [encodeItem, hws], ?_, hfa⟩
    have h1 := hfa.length_eq
    rw [sortPairs_length] at h1
    exact h1.symm
  · intro h
    rcases h with ⟨p, hp, hfail⟩
    rcases encodeProps_error_of ⟨p, mem_sortPairs.mpr hp, hfail⟩ with ⟨e, he⟩
    exact ⟨e, by rw [encodeItem, he]⟩
  · intro props2 hperm hnd
    rw [encodeItem, encodeItem, sortPairs_eq_of_perm hperm hnd]

/-- C5 witness: the amended claim's production clause at a concrete object
node, with keys declared out of order and one property missing from the
input. -/
theorem C5_object_encoding_amended_witness :
    (∀ p ∈ [("b", SchemaItem.prim .number false), ("a", SchemaItem.prim .boolean false)],
      ∃ w, encodeItem p.2 ((getField [("b", Value.num 7)] p.1).getD .null) = .ok w) ∧
    ∃ ws, encodeItem (.object false [("b", .prim .number false), ("a", .prim .boolean false)])
        (.obj [("b", .num 7)]) = .ok (.arr ws) ∧
      ws.length = ([("b", SchemaItem.prim .number false),
        ("a", SchemaItem.prim .boolean false)]).length ∧
      List.Forall₂ (fun (p : String × SchemaItem) w =>
        encodeItem p.2 ((getField [("b", Value.num 7)] p.1).getD .null) = .ok w)
        (sortPairs [("b", .prim .number false), ("a", .prim .boolean false)]) ws := by
  have hch : ∀ p ∈ [("b", SchemaItem.prim .number false), ("a", SchemaItem.prim .boolean false)],
      ∃ w, encodeItem p.2 ((getField [("b", Value.num 7)] p.1).getD .null) = .ok w := by
    intro p hp
    rcases List.mem_cons.mp hp with h1 | h2
    · subst h1
      exact ⟨.num 7, by simp [encodeItem, getField]⟩
    · rcases List.mem_cons.mp h2 with h3 | h4
      · subst h3
        exact ⟨.num 2, by simp [encodeItem, getField]⟩
      · simp at h4
  exact ⟨hch, (C5_object_encoding_amended false
    [("b", .prim .number false), ("a", .prim .boolean false)]
    [("b", Value.num 7)]).2.2.2.1 hch⟩

/-- C6: object decoding with exact arity.  Wire null decodes to null; a
non-sequence wire value, or a sequence whose length differs from the number
of declared properties, poisons the whole node; a sequence of matching
length is decoded positionally against the lexicographically sorted property
names, position i with the child decoder of the i-th sorted name. -/
theorem C6_object_decoding (nb : Bool) (props : List (String × SchemaItem)) :
    (decodeItem (.object nb props) .null = .ok .null) ∧
    (∀ v : Value, v ≠ .null → v.isArray = false →
      decodeItem (.object nb props) v = .ok poison) ∧
    (∀ xs : List Value, xs.length ≠ props.length →
      decodeItem (.object nb props) (.arr xs) = .ok poison) ∧
    (∀ xs : List Value, xs.length = props.length →
      List.Pairwise (fun a b : String => a ≤ b) ((sortPairs props).map Prod.fst) ∧
      ∃ fs, decodeItem (.object nb props) (.arr xs) = .ok (.obj fs) ∧
        List.Forall₂ (fun (px : (String × SchemaItem) × Value) (f : String × Value) =>
          f.1 = px.1.1 ∧ decodeItem px.1.2 px.2 = .ok f.2) ((sortPairs props).zip xs) fs) := by
  refine ⟨by simp [decodeItem], ?_, ?_, ?_⟩
  · intro v hnull harr
    cases v <;> simp_all [Value.isArray] <;> simp [decodeItem]
  · intro xs hlen
    rw [decodeItem, if_neg (by rw [sortPairs_length]; exact hlen)]
  · intro xs hlen
    refine ⟨(List.pairwise_map).mpr (sortPairs_pairwise props), ?_⟩
    have hlen2 : xs.length = (sortPairs props).length := by rw [sortPairs_length]; exact hlen
    rcases decodeProps_forall₂ (sortPairs props) xs hlen2 with ⟨fs, hfs, hfa⟩
    exact ⟨fs, by rw [decodeItem, if_pos hlen2, hfs], hfa⟩

/-- C6 witness: a concrete object node decoded from a matching-length wire
sequence, plus the poisoning of a length mismatch. -/
theorem C6_object_decoding_witness :
    decodeItem (.object false [("v", .prim .number false)]) (.arr [.num 5, .num 6]) =
      .ok poison ∧
    ∃ fs, decodeItem (.object false [("v", .prim .number false)]) (.arr [.num 5]) =
      .ok (.obj fs) ∧
      List.Forall₂ (fun (px : (String × SchemaItem) × Value) (f : String × Value) =>
        f.1 = px.1.1 ∧ decodeItem px.1.2 px.2 = .ok f.2)
        ((sortPairs [("v", .prim .number false)]).zip [.num 5]) fs := by
  constructor
  · exact (C6_object_decoding false [("v", .prim .number false)]).2.2.1 [.num 5, .num 6]
      (by simp)
  · exact ((C6_object_decoding false [("v", .prim .number false)]).2.2.2 [.num 5]
      (by simp)).2

/-- C7 counterexample: the claim fails as stated.  The discriminant field of
a union value is named `type` in this codebase, not `tag`: a mapping carrying
`tag` and `data` fields with a declared tag name and valid data is rejected
with "Expected type and data keys", although the data itself satisfies the
matching child schema. -/
theorem C7_union_validation_counterexample :
    validateItem (.union false [("a", .prim .number false)])
        (.obj [("tag", .str "a"), ("data", .num 1)]) =
      .failure [⟨[], "Expected type and data keys",
        .obj [("tag", .str "a"), ("data", .num 1)]⟩] ∧
    validateItem (.prim .number false) (.num 1) = .success := by
  constructor
  · simp [validateItem, checkNullability, Value.isNull, hasField, getField]
  · simp [validateItem, checkPrimitive, checkNullability, Value.isNull, Value.jsTypeof,
      PrimKind.jsName]

/-- C7 (amended): union validation with the discriminant field named `type`
(the spec's "tag" is the discriminant; the code's field is `type`).  For
every non-null value: a non-mapping is rejected; a mapping missing the
`type` or the `data` key is rejected; a mapping whose `type` value is not
the name of a declared option (a pure membership test — a name is declared
exactly when it is among the declared keys, order irrelevant) is rejected;
otherwise validation is exactly the matching option's child validation
applied to the `data` value. -/
theorem C7_union_validation_amended (nb : Bool) (opts : List (String × SchemaItem))
    (v : Value) (hnull : v ≠ .null) :
    ((v.isArray = true ∨ v.jsTypeof ≠ "object") →
      validateItem (.union nb opts) v = .failure [⟨[], "Expected object", v⟩]) ∧
    (∀ fields, v = .obj fields →
      ((hasField fields "type" && hasField fields "data") = false →
        validateItem (.union nb opts) v =
          .failure [⟨[], "Expected type and data keys", .obj fields⟩]) ∧
      ((hasField fields "type" && hasField fields "data") = true →
        ((∀ t : String, (getField fields "type").getD .null = .str t →
            findOption opts t = none →
            validateItem (.union nb opts) v =
              .failure [⟨[], "Invalid union type", .obj fields⟩]) ∧
         ((∀ t : String, (getField fields "type").getD .null ≠ .str t) →
            validateItem (.union nb opts) v =
              .failure [⟨[], "Invalid union type", .obj fields⟩]) ∧
         (∀ (t : String) (cs : SchemaItem),
            (getField fields "type").getD .null = .str t →
            findOption opts t = some cs →
            validateItem (.union nb opts) v =
              validateItem cs ((getField fields "data").getD .null))))) ∧
    (∀ t : String, (findOption opts t).isSome = true ↔ t ∈ opts.map Prod.fst) := by
  refine ⟨?_, ?_, ?_⟩
  · intro hshape
    cases v <;> simp [Value.isArray, Value.jsTypeof] at hshape <;>
      simp [validateItem, checkNullability, Value.isNull] <;> simp at hnull
  · intro fields hv
    subst hv
    constructor
    · intro hk
      simp [validateItem, checkNullability, Value.isNull, hk]
    · intro hk
      refine ⟨?_, ?_, ?_⟩
      · intro t hty hnone
        simp only [validateItem, checkNullability, Value.isNull, Bool.and_false,
          Bool.false_eq_true, if_false]
        rw [hk]
        simp only [Bool.not_true, Bool.false_eq_true, if_false]
        rw [hty]
        split
        · rename_i h2 t2 heq
          injection heq with h3
          subst h3
          split
          · rename_i cs2 heq2
            rw [hnone] at heq2
            cases heq2
          · rfl
        · rename_i h2 hno
          exact absurd rfl (hno t)
      · intro hno
        simp only [validateItem, checkNullability, Value.isNull, Bool.and_false,
          Bool.false_eq_true, if_false]
        rw [hk]
        simp only [Bool.not_true, Bool.false_eq_true, if_false]
      · intro t cs hty hfind
        simp only [validateItem, checkNullability, Value.isNull, Bool.and_false,
          Bool.false_eq_true, if_false]
        rw [hk]
        simp only [Bool.not_true, Bool.false_eq_true, if_false]
        rw [hty]
        split
        · rename_i h2 t2 heq
          injection heq with h3
          subst h3
          split
          · rename_i cs2 heq2
            rw [hfind] at heq2
            injection heq2 with heq3
            rw [← heq3]
          · rename_i hnone
            rw [hfind] at hnone
            cases hnone
        · rename_i h2 hno
          exact absurd rfl (hno t)
  · intro t
    induction opts with
    | nil => simp [findOption]
    | cons p rest ih =>
      cases p with
      | mk k cs =>
        by_cases hk : k = t
        · subst hk
          simp [findOption]
        · simp [findOption, hk, ih]
          intro hc
          exact absurd hc.symm hk

/-- Witness for C7: on the concrete payload `{type: "a", data: 1}` against the
union `{a: number}`, the amended union-validation theorem applies and its
delegation clause yields validation of the `data` value against the selected
option. -/
theorem C7_union_validation_amended_witness :
    (Value.obj [("type", .str "a"), ("data", .num 1)] ≠ Value.null) ∧
    validateItem (.union false [("a", .prim .number false)])
      (.obj [("type", .str "a"), ("data", .num 1)]) =
      validateItem (.prim .number false) (.num 1) := by
  have hnull : (Value.obj [("type", Value.str "a"), ("data", Value.num 1)]) ≠ Value.null := by
    simp
  have h := C7_union_validation_amended false [("a", .prim .number false)]
    (.obj [("type", .str "a"), ("data", .num 1)]) hnull
  refine ⟨hnull, ?_⟩
  have hk : (hasField [("type", Value.str "a"), ("data", Value.num 1)] "type" &&
      hasField [("type", Value.str "a"), ("data", Value.num 1)] "data") = true := by
    simp [hasField, getField]
  have h3 := ((h.2.1 _ rfl).2 hk).2.2 "a" (.prim .number false)
    (by simp [getField]) (by simp [findOption])
  rw [h3]
  simp [getField]

/-- C8: for an object schema with required properties `x` and `y` and the input
`{x: 1}` where key `y` is absent, the schema validator fails with exactly one
error carrying the missing-key marker ("Some keys are missing from the object",
path `[]`), for every choice of the two property schemas — in particular
regardless of whether `y` is nullable; whereas an explicit `y: null` on a
nullable `y` validates successfully, so absence is treated differently from an
explicit null. -/
theorem C8_missing_key (sx sy : SchemaItem) :
    getSchemaValidator [("x", sx), ("y", sy)] (.obj [("x", .num 1)]) =
      .failure [⟨[], "Some keys are missing from the object", .obj [("x", .num 1)]⟩] ∧
    getSchemaValidator [("x", .prim .number false), ("y", .prim .number true)]
      (.obj [("x", .num 1), ("y", .null)]) =
      .success (.obj [("x", .num 1), ("y", .null)]) := by
  constructor
  · simp [getSchemaValidator, validateItem, checkNullability, Value.isNull,
      hasField, getField]
  · simp [getSchemaValidator, validateItem, checkNullability, Value.isNull,
      hasField, getField, validateProps, checkPrimitive, Value.jsTypeof,
      PrimKind.jsName, childErrors]

/-- Witness for C8 at the concrete property schemas `x: number`,
`y: nullable number`. -/
theorem C8_missing_key_witness :
    getSchemaValidator [("x", .prim .number false), ("y", .prim .number true)]
      (.obj [("x", .num 1)]) =
      .failure [⟨[], "Some keys are missing from the object", .obj [("x", .num 1)]⟩] :=
  (C8_missing_key (.prim .number false) (.prim .number true)).1

/-- C9: `pack` first runs the schema validator and throws
"Data to pack doesn\x27t conform to schema" when it rejects the data; when the
validator accepts, the encoder succeeds with some wire value `w`, and `pack`
throws "Callback data exceeds maximum length" exactly when the string
`prefix + "." + serialized` (the JSON serialization of `w` with the outer
brackets stripped) exceeds `CALLBACK_DATA_MAX_LENGTH = 64` characters, and
otherwise returns exactly that string. -/
theorem C9_pack_gate (stringify : Value → String) (pfx : String)
    (schema : CallbackSchema) (data : Value) :
    (∀ es, getSchemaValidator schema data = .failure es →
      pack stringify pfx schema data = .error "Data to pack doesn\x27t conform to schema") ∧
    (∀ d, getSchemaValidator schema data = .success d →
      ∃ w, getSchemaEncoder schema d = .ok w ∧
        pack stringify pfx schema data =
          (if (pfx ++ "." ++ (((stringify w).drop 1).dropRight 1)).length >
              CALLBACK_DATA_MAX_LENGTH then
            .error "Callback data exceeds maximum length"
          else .ok (pfx ++ "." ++ (((stringify w).drop 1).dropRight 1)))) ∧
    CALLBACK_DATA_MAX_LENGTH = 64 := by
  refine ⟨?_, ?_, rfl⟩
  · intro es hes
    rw [pack, hes]
  · intro d hd
    have hval : validateItem (.object false schema) d = .success := by
      have h2 := getSchemaValidator_success_iff.mp hd
      rw [h2.2]
      exact h2.1
    obtain ⟨w, hw⟩ := encodeItem_ok_of_valid (sizeOf (SchemaItem.object false schema))
      (.object false schema) d le_rfl hval
    refine ⟨w, hw, ?_⟩
    rw [pack, hd]
    simp only [getSchemaEncoder, hw]

/-- Witness for C9: with schema `{v: "number"}`, payload `{v: 1}`, prefix "p",
and a serializer returning "[1]", `pack` succeeds with "p.1" (3 ≤ 64 chars). -/
theorem C9_pack_gate_witness :
    pack (fun _ => "[1]") "p" [("v", .prim .number false)] (.obj [("v", .num 1)]) =
      .ok "p.1" := by
  have hd : getSchemaValidator [("v", SchemaItem.prim .number false)]
      (.obj [("v", .num 1)]) = .success (.obj [("v", .num 1)]) := by
    simp [getSchemaValidator, validateItem, checkNullability, Value.isNull,
      hasField, getField, validateProps, checkPrimitive, Value.jsTypeof,
      PrimKind.jsName, childErrors]
  obtain ⟨w, hw, hp⟩ :=
    (C9_pack_gate (fun _ => "[1]") "p" [("v", .prim .number false)]
      (.obj [("v", .num 1)])).2.1 (.obj [("v", .num 1)]) hd
  rw [hp]
  norm_num [CALLBACK_DATA_MAX_LENGTH]
  rfl

/-- C10: `unpack` agrees with `unpackSafe` on every callback input: it returns
`d` exactly when `unpackSafe` reports `{success: true, data: d}`, and it throws
a `CallbackUnpackError` wrapping exactly the failure that `unpackSafe` reports;
the failure is MALFORMED_INPUT exactly when the serialized part does not parse,
and VALIDATION_ERROR with the validator\x27s error list exactly when the parsed
wire value decodes to a payload that the schema validator rejects with that
list.  (`parse` stands for `JSON.parse` on `"[" + serialized + "]"`, returning
`none` on a SyntaxError.) -/
theorem C10_unpack_agreement (parse : String → Option Value)
    (schema : CallbackSchema) (callback : MaybeNestedCallbackData) :
    (∀ d, unpack parse schema callback = .ok (.ok d) ↔
      unpackSafe parse schema callback = .ok (.success d)) ∧
    (∀ err, unpack parse schema callback = .ok (.error ⟨err⟩) ↔
      unpackSafe parse schema callback = .ok (.failure err)) ∧
    (unpackSafe parse schema callback = .ok (.failure .malformedInput) ↔
      parse ("[" ++ (splitWithTail (normalizeCallbackData callback) "." 2).getD 1 ""
        ++ "]") = none) ∧
    (∀ es, unpackSafe parse schema callback = .ok (.failure (.validationError es)) ↔
      ∃ encoded decoded,
        parse ("[" ++ (splitWithTail (normalizeCallbackData callback) "." 2).getD 1 ""
          ++ "]") = some encoded ∧
        getSchemaDecoder schema encoded = .ok decoded ∧
        getSchemaValidator schema decoded = .failure es) := by
  have hmain : ∀ r, unpackSafe parse schema callback = .ok r →
      (unpack parse schema callback =
        match r with
        | .success d => .ok (.ok d)
        | .failure err => .ok (.error ⟨err⟩)) := by
    intro r hr
    rw [unpack, hr]
    cases r <;> rfl
  refine ⟨?_, ?_, ?_, ?_⟩
  · intro d
    constructor
    · intro h
      rcases hs : unpackSafe parse schema callback with e | r
      · rw [unpack, hs] at h; cases h
      · have h2 := hmain r hs
        cases r with
        | success d2 =>
          rw [h2] at h
          injection h with h3
          injection h3 with h4
          rw [h4]
        | failure err =>
          rw [h2] at h
          injection h with h3
          cases h3
    · intro h
      exact hmain _ h
  · intro err
    constructor
    · intro h
      rcases hs : unpackSafe parse schema callback with e | r
      · rw [unpack, hs] at h; cases h
      · have h2 := hmain r hs
        cases r with
        | success d2 =>
          rw [h2] at h
          injection h with h3
          cases h3
        | failure err2 =>
          rw [h2] at h
          injection h with h3
          injection h3 with h4
          have h5 : err2 = err := congrArg CallbackUnpackError.unpackError h4
          rw [h5]
    · intro h
      exact hmain _ h
  · rw [unpackSafe]
    rcases hp : parse ("[" ++ (splitWithTail (normalizeCallbackData callback) "." 2).getD 1 ""
        ++ "]") with _ | encoded
    · simp
    · simp only
      obtain ⟨w, hw⟩ := getSchemaDecoder_total schema encoded
      rw [hw]
      rcases hv : getSchemaValidator schema w with d | es <;> simp [hv]
  · intro es
    rw [unpackSafe]
    rcases hp : parse ("[" ++ (splitWithTail (normalizeCallbackData callback) "." 2).getD 1 ""
        ++ "]") with _ | encoded
    · simp
    · simp only
      obtain ⟨w, hw⟩ := getSchemaDecoder_total schema encoded
      rw [hw]
      rcases hv : getSchemaValidator schema w with d | es2 <;> simp [hw, hv]

/-- Witness for C10: with a parser that always fails, any callback yields
MALFORMED_INPUT from `unpackSafe`, and `unpack` throws the wrapped error. -/
theorem C10_unpack_agreement_witness :
    unpackSafe (fun _ => none) [] (.plain "p.x") = .ok (.failure .malformedInput) ∧
    unpack (fun _ => none) [] (.plain "p.x") = .ok (.error ⟨.malformedInput⟩) := by
  have h := C10_unpack_agreement (fun _ => none) [] (.plain "p.x")
  have h1 : unpackSafe (fun _ => none) [] (.plain "p.x") =
      .ok (.failure .malformedInput) := h.2.2.1.mpr rfl
  exact ⟨h1, (h.2.1 .malformedInput).mpr h1⟩
